import Mathlib

/-!
Verification of the `seridescent/raytracing` repository.

The development shallowly embeds the Rust sources into Lean.  64-bit IEEE
floats (`f64`) are modelled by the type `RT.F`: either one of the special
values NaN, `+inf`, `-inf`, or an exact rational number.  Arithmetic on the
special values follows IEEE-754 (with an unsigned zero); arithmetic on the
rational part is exact, which is the usual idealisation of floating point
("within floating tolerance" in the specification).  The square root is
exact on perfect squares (every concrete input used below is one) and is an
under-approximation elsewhere; the theorems only use its sign and bounds.

Rational arithmetic is routed through kernel-reducible wrappers (`qadd`,
`qmul`, ...) because the Mathlib `Rat` operations are `@[irreducible]` and
would otherwise block `decide` on concrete inputs.
-/

set_option maxRecDepth 100000

namespace RT

/-- Kernel-reducible addition on `ℚ` (same value as `+`). -/
def qadd (a b : ℚ) : ℚ := mkRat (a.num * b.den + b.num * a.den) (a.den * b.den)

/-- Kernel-reducible subtraction on `ℚ` (same value as `-`). -/
def qsub (a b : ℚ) : ℚ := mkRat (a.num * b.den - b.num * a.den) (a.den * b.den)

/-- Kernel-reducible multiplication on `ℚ` (same value as `*`). -/
def qmul (a b : ℚ) : ℚ := mkRat (a.num * b.num) (a.den * b.den)

/-- Kernel-reducible negation on `ℚ` (same value as `Neg.neg`). -/
def qneg (a : ℚ) : ℚ := mkRat (-a.num) a.den

/-- Kernel-reducible division on `ℚ` (same value as `/`). -/
def qdiv (a b : ℚ) : ℚ := Rat.divInt (a.num * b.den) ((a.den : ℤ) * b.num)

/-- Kernel-reducible absolute value on `ℚ` (same value as `|·|`). -/
def qabs (a : ℚ) : ℚ := mkRat (a.num.natAbs : ℤ) a.den

/-- Largest `k ≤ r` with `k * k ≤ n` (and `0` if there is none). -/
def sqrtDown : ℕ → ℕ → ℕ
  | 0, _ => 0
  | r + 1, n => if (r + 1) * (r + 1) ≤ n then r + 1 else sqrtDown r n

/-- Kernel-reducible integer square root on `ℕ` (floor of the real root). -/
def natSqrtLin (n : ℕ) : ℕ := sqrtDown n n

/-- Kernel-reducible integer square root on `ℤ` (zero on negatives). -/
def intSqrtLin (m : ℤ) : ℤ := (natSqrtLin m.toNat : ℤ)

/-- Kernel-reducible square root on `ℚ`: integer square root of the numerator
over the integer square root of the denominator.  Exact on perfect squares. -/
def ratSqrt (q : ℚ) : ℚ := mkRat (intSqrtLin q.num) (natSqrtLin q.den)

/-- Model of Rust `f64`: NaN, the two infinities, or an exact rational.
Zero is unsigned; rational arithmetic is exact. -/
inductive F where
  | nan : F
  | inf : F
  | ninf : F
  | fin (q : ℚ) : F
deriving DecidableEq
namespace F

/-- IEEE negation. -/
def neg : F → F
  | nan => nan
  | inf => ninf
  | ninf => inf
  | fin q => fin (qneg q)

/-- IEEE addition (`inf + -inf = NaN`). -/
def add : F → F → F
  | nan, _ => nan
  | inf, nan => nan
  | inf, inf => inf
  | inf, ninf => nan
  | inf, fin _ => inf
  | ninf, nan => nan
  | ninf, inf => nan
  | ninf, ninf => ninf
  | ninf, fin _ => ninf
  | fin _, nan => nan
  | fin _, inf => inf
  | fin _, ninf => ninf
  | fin a, fin b => fin (qadd a b)

/-- IEEE subtraction, as `a + (-b)`. -/
def sub (a b : F) : F := add a (neg b)

/-- IEEE multiplication (`inf * 0 = NaN`). -/
def mul : F → F → F
  | nan, _ => nan
  | inf, nan => nan
  | inf, inf => inf
  | inf, ninf => ninf
  | inf, fin q => if q = 0 then nan else if decide (0 < q) then inf else ninf
  | ninf, nan => nan
  | ninf, inf => ninf
  | ninf, ninf => inf
  | ninf, fin q => if q = 0 then nan else if decide (0 < q) then ninf else inf
  | fin _, nan => nan
  | fin q, inf => if q = 0 then nan else if decide (0 < q) then inf else ninf
  | fin q, ninf => if q = 0 then nan else if decide (0 < q) then ninf else inf
  | fin a, fin b => fin (qmul a b)

/-- IEEE division with an unsigned zero (`x / 0` is `NaN` for `x = 0` and a
signed infinity otherwise, matching division by IEEE `+0`). -/
def div : F → F → F
  | nan, _ => nan
  | _, nan => nan
  | inf, inf => nan
  | inf, ninf => nan
  | ninf, inf => nan
  | ninf, ninf => nan
  | inf, fin q => if decide (q < 0) then ninf else inf
  | ninf, fin q => if decide (q < 0) then inf else ninf
  | fin _, inf => fin 0
  | fin _, ninf => fin 0
  | fin a, fin b =>
    if b = 0 then (if a = 0 then nan else if decide (0 < a) then inf else ninf)
    else fin (qdiv a b)

/-- IEEE strict comparison: false whenever an operand is NaN. -/
def lt : F → F → Bool
  | nan, _ => false
  | _, nan => false
  | ninf, ninf => false
  | ninf, inf => true
  | ninf, fin _ => true
  | inf, _ => false
  | fin _, inf => true
  | fin _, ninf => false
  | fin a, fin b => decide (a < b)

/-- IEEE non-strict comparison: false whenever an operand is NaN. -/
def le : F → F → Bool
  | nan, _ => false
  | _, nan => false
  | ninf, _ => true
  | inf, inf => true
  | inf, ninf => false
  | inf, fin _ => false
  | fin _, inf => true
  | fin _, ninf => false
  | fin a, fin b => decide (a ≤ b)

/-- IEEE equality (Rust `==`): NaN compares unequal to everything. -/
def beq : F → F → Bool
  | inf, inf => true
  | ninf, ninf => true
  | fin a, fin b => decide (a = b)
  | _, _ => false

/-- Rust `f64::min`: if one argument is NaN the other is returned. -/
def minR : F → F → F
  | nan, y => y
  | inf, nan => inf
  | inf, inf => inf
  | inf, ninf => ninf
  | inf, fin b => fin b
  | ninf, nan => ninf
  | ninf, inf => ninf
  | ninf, ninf => ninf
  | ninf, fin _ => ninf
  | fin a, nan => fin a
  | fin a, inf => fin a
  | fin _, ninf => ninf
  | fin a, fin b => if decide (a ≤ b) then fin a else fin b

/-- Rust `f64::max`: if one argument is NaN the other is returned. -/
def maxR : F → F → F
  | nan, y => y
  | inf, nan => inf
  | inf, inf => inf
  | inf, ninf => inf
  | inf, fin _ => inf
  | ninf, nan => ninf
  | ninf, inf => inf
  | ninf, ninf => ninf
  | ninf, fin b => fin b
  | fin a, nan => fin a
  | fin _, inf => inf
  | fin a, ninf => fin a
  | fin a, fin b => if decide (a ≤ b) then fin b else fin a

/-- IEEE absolute value. -/
def abs : F → F
  | nan => nan
  | inf => inf
  | ninf => inf
  | fin q => fin (qabs q)

/-- Model of `f64::sqrt`: NaN on negatives, exact on perfect squares. -/
def sqrt : F → F
  | nan => nan
  | inf => inf
  | ninf => nan
  | fin q => if decide (q < 0) then nan else fin (ratSqrt q)

/-- Rust `f64::clamp(self, lo, hi)`; propagates a NaN `self`. -/
def clampRust (x lo hi : F) : F := if lt x lo then lo else if lt hi x then hi else x

/-- Rust `f64::total_cmp` (with the single NaN ordered above `+inf`). -/
def totalCmp : F → F → Ordering
  | ninf, ninf => .eq
  | ninf, _ => .lt
  | fin _, ninf => .gt
  | fin a, fin b => if decide (a < b) then .lt else if decide (b < a) then .gt else .eq
  | fin _, _ => .lt
  | inf, ninf => .gt
  | inf, fin _ => .gt
  | inf, inf => .eq
  | inf, nan => .lt
  | nan, nan => .eq
  | nan, _ => .gt

/-- `x^n` for a natural exponent, modelling Rust `powi` on the embedded reals. -/
def powi (x : F) : ℕ → F
  | 0 => fin 1
  | n + 1 => mul (powi x n) x

def isNan : F → Bool
  | nan => true
  | _ => false

/-- Stand-in for `f64::acos`; affects only sphere texture coordinates, which
no claim depends on, and is therefore modelled abstractly. -/
def acos (_ : F) : F := nan

/-- Stand-in for `f64::atan2`; affects only sphere texture coordinates, which
no claim depends on, and is therefore modelled abstractly. -/
def atan2 (_ _ : F) : F := nan

/-- Stand-in for `std::f64::consts::PI`; affects only sphere texture
coordinates, which no claim depends on. -/
def piF : F := nan
end F

/-- `vector.rs`: `Vector3 { x, y, z }`. -/
structure Vector3 where
  x : F
  y : F
  z : F
deriving DecidableEq
namespace Vector3

/-- `Vector3::ZERO`. -/
def zero : Vector3 := ⟨.fin 0, .fin 0, .fin 0⟩

/-- `impl Add for Vector3`. -/
def vadd (a b : Vector3) : Vector3 := ⟨F.add a.x b.x, F.add a.y b.y, F.add a.z b.z⟩

/-- `impl Sub for Vector3`. -/
def vsub (a b : Vector3) : Vector3 := ⟨F.sub a.x b.x, F.sub a.y b.y, F.sub a.z b.z⟩

/-- `impl Neg for Vector3`. -/
def vneg (a : Vector3) : Vector3 := ⟨F.neg a.x, F.neg a.y, F.neg a.z⟩

/-- `impl Mul for Vector3` (componentwise). -/
def vmul (a b : Vector3) : Vector3 := ⟨F.mul a.x b.x, F.mul a.y b.y, F.mul a.z b.z⟩

/-- `impl Mul<f64> for Vector3`. -/
def smul (a : Vector3) (s : F) : Vector3 := ⟨F.mul a.x s, F.mul a.y s, F.mul a.z s⟩

/-- `impl Div<f64> for Vector3`: multiplies by `1.0 / rhs`, as the source does. -/
def sdiv (a : Vector3) (s : F) : Vector3 := smul a (F.div (.fin 1) s)

/-- `impl Div<Vector3> for Vector3` (componentwise direct division). -/
def vdiv (a b : Vector3) : Vector3 := ⟨F.div a.x b.x, F.div a.y b.y, F.div a.z b.z⟩

/-- `vector.rs::dot`. -/
def dot (a b : Vector3) : F :=
  F.add (F.add (F.mul a.x b.x) (F.mul a.y b.y)) (F.mul a.z b.z)

/-- `vector.rs::cross`. -/
def cross (a b : Vector3) : Vector3 :=
  ⟨F.sub (F.mul a.y b.z) (F.mul a.z b.y),
   F.sub (F.mul a.z b.x) (F.mul a.x b.z),
   F.sub (F.mul a.x b.y) (F.mul a.y b.x)⟩

/-- `Vector3::length_squared`. -/
def lengthSquared (a : Vector3) : F :=
  F.add (F.add (F.mul a.x a.x) (F.mul a.y a.y)) (F.mul a.z a.z)

/-- `Vector3::length`. -/
def length (a : Vector3) : F := F.sqrt (lengthSquared a)

/-- `Vector3::to_unit`. -/
def toUnit (a : Vector3) : Vector3 := sdiv a (length a)

/-- `vector.rs::reflect`: `v - 2.0 * dot(v, n) * n`. -/
def reflect (v n : Vector3) : Vector3 :=
  vsub v (smul n (F.mul (.fin 2) (dot v n)))

/-- `vector.rs::refract`. -/
def refract (rIn n : Vector3) (etaInOverEtaOut : F) : Vector3 :=
  let cosTheta := F.clampRust (dot (vneg rIn) n) (.fin (-1)) (.fin 1)
  let rOutPerp := smul (vadd rIn (smul n cosTheta)) etaInOverEtaOut
  let rOutPar := smul n (F.neg (F.sqrt (F.abs (F.sub (.fin 1) (lengthSquared rOutPerp)))))
  vadd rOutPerp rOutPar
end Vector3

/-- `interval.rs`: `Interval { min, max }`. -/
structure Interval where
  min : F
  max : F
deriving DecidableEq
namespace Interval

/-- `Interval::EMPTY`. -/
def emptyI : Interval := ⟨.inf, .ninf⟩

/-- `Interval::UNIVERSE`. -/
def universeI : Interval := ⟨.ninf, .inf⟩

/-- Modelled from the spec: `Interval::UNIT` is used by `quad::hit` ("both
coordinates lie in [0,1]") but its definition is not under `src/`. -/
def unit : Interval := ⟨.fin 0, .fin 1⟩

/-- `Interval::contains` (inclusive). -/
def contains (i : Interval) (t : F) : Bool := F.le i.min t && F.le t i.max

/-- `Interval::surrounds` (exclusive). -/
def surrounds (i : Interval) (t : F) : Bool := F.lt i.min t && F.lt t i.max

/-- Modelled from the spec: `Interval` "supports ... clamping"; the method is
called from `aabb.rs` and `camera.rs` but is not under `src/`.  Clamps the
argument into `[min, max]`, propagating a NaN argument like `f64::clamp`. -/
def clamp (i : Interval) (t : F) : F :=
  if F.lt t i.min then i.min else if F.lt i.max t then i.max else t
end Interval

/-- Modelled from the spec: `Ray { origin, direction }` with
`at(t) = origin + t*direction` (`ray.rs` is not under `src/`). -/
structure Ray where
  origin : Vector3
  direction : Vector3
deriving DecidableEq

/-- Modelled from the spec: `Ray::at`. -/
def Ray.at (r : Ray) (t : F) : Vector3 := Vector3.vadd r.origin (Vector3.smul r.direction t)

/-- `aabb.rs`: `AABB { min, max }`. -/
structure AABB where
  min : Vector3
  max : Vector3
deriving DecidableEq
namespace AABB

/-- `AABB::EMPTY`. -/
def emptyA : AABB := ⟨⟨.inf, .inf, .inf⟩, ⟨.ninf, .ninf, .ninf⟩⟩

/-- `AABB::new`: componentwise `f64::min` / `f64::max` of the two corners. -/
def newA (a b : Vector3) : AABB :=
  ⟨⟨F.minR a.x b.x, F.minR a.y b.y, F.minR a.z b.z⟩,
   ⟨F.maxR a.x b.x, F.maxR a.y b.y, F.maxR a.z b.z⟩⟩

/-- `AABB::merge`. -/
def merge (a b : AABB) : AABB :=
  ⟨⟨F.minR a.min.x b.min.x, F.minR a.min.y b.min.y, F.minR a.min.z b.min.z⟩,
   ⟨F.maxR a.max.x b.max.x, F.maxR a.max.y b.max.y, F.maxR a.max.z b.max.z⟩⟩

/-- `AABB::hit` (slab test), including the source's ineffective NaN guard
(`lowers.contains(&f64::NAN)` uses IEEE `==`, which never matches NaN). -/
def hit (bb : AABB) (ray : Ray) (rayT : Interval) : Bool :=
  let t0 := Vector3.vdiv (Vector3.vsub bb.min ray.origin) ray.direction
  let t1 := Vector3.vdiv (Vector3.vsub bb.max ray.origin) ray.direction
  let lowers := [F.minR t0.x t1.x, F.minR t0.y t1.y, F.minR t0.z t1.z]
  let uppers := [F.maxR t0.x t1.x, F.maxR t0.y t1.y, F.maxR t0.z t1.z]
  if lowers.any (fun v => F.beq v F.nan) || uppers.any (fun v => F.beq v F.nan) then
    false
  else
    let lowersMax := (lowers.map rayT.clamp).foldl F.maxR F.nan
    let uppersMin := (uppers.map rayT.clamp).foldl F.minR F.nan
    F.lt lowersMax uppersMin

/-- Modelled from the spec: the bounding-box "spatial midpoint" used by the
partitioning code (`AABB::centroid` is called from `src/` but not defined
there): the average of the two corners. -/
def centroid (bb : AABB) : Vector3 :=
  Vector3.sdiv (Vector3.vadd bb.min bb.max) (.fin 2)

/-- Modelled from the spec: `AABB::dimensions`, the per-axis extents
(`max - min`), used by the SAH code. -/
def dimensions (bb : AABB) : Vector3 := Vector3.vsub bb.max bb.min

/-- Modelled from the spec: `AABB::padded` pads "by a small epsilon
(e.g. 1e-4) on the degenerate (zero-thickness) axis". -/
def padded (bb : AABB) (eps : F) : AABB :=
  let half := F.div eps (.fin 2)
  let pad1 := fun (lo hi : F) =>
    if F.lt (F.sub hi lo) eps then (F.sub lo half, F.add hi half) else (lo, hi)
  let px := pad1 bb.min.x bb.max.x
  let py := pad1 bb.min.y bb.max.y
  let pz := pad1 bb.min.z bb.max.z
  ⟨⟨px.1, py.1, pz.1⟩, ⟨px.2, py.2, pz.2⟩⟩

/-- Rust `#[derive(PartialEq)]` equality on `AABB` (IEEE `==` componentwise),
used by the SAH partitioning code. -/
def beqA (a b : AABB) : Bool :=
  F.beq a.min.x b.min.x && F.beq a.min.y b.min.y && F.beq a.min.z b.min.z &&
  F.beq a.max.x b.max.x && F.beq a.max.y b.max.y && F.beq a.max.z b.max.z
end AABB

/-- `geometry.rs`: the per-intersection `Hit` record. -/
structure Hit where
  t : F
  p : Vector3
  alpha : F
  beta : F
  front_face : Bool
  face_normal : Vector3
deriving DecidableEq

/-- `geometry.rs::compute_face_normal`. -/
def computeFaceNormal (ray : Ray) (outwardNormal : Vector3) : Bool × Vector3 :=
  let frontFace := F.lt (Vector3.dot ray.direction outwardNormal) (.fin 0)
  (frontFace, if frontFace then outwardNormal else Vector3.vneg outwardNormal)

/-- `geometry.rs::plane_intersection`: rejects near-parallel rays
(`denominator.abs() < 1e-10`). -/
def planeIntersection (norm : Vector3) (d : F) (ray : Ray) : Option F :=
  let denominator := Vector3.dot norm ray.direction
  if F.lt (F.abs denominator) (.fin (mkRat 1 10000000000)) then
    none
  else
    some (F.div (F.sub d (Vector3.dot norm ray.origin)) denominator)

/-- `geometry.rs`: the intermediate `UvHit` record. -/
structure UvHit where
  t : F
  p : Vector3
  alpha : F
  beta : F

/-- `geometry.rs::uv_hit`: shared planar intersection plus (alpha, beta)
plane coordinates. -/
def uvHit (q u v norm : Vector3) (d : F) (w : Vector3) (ray : Ray)
    (rayT : Interval) : Option UvHit :=
  match planeIntersection norm d ray with
  | none => none
  | some t =>
    if ¬ rayT.contains t then
      none
    else
      let p := ray.at t
      let qp := Vector3.vsub p q
      let alpha := Vector3.dot w (Vector3.cross qp v)
      let beta := Vector3.dot w (Vector3.cross u qp)
      some ⟨t, p, alpha, beta⟩

/-- `geometry.rs::sphere::hit`. -/
def sphereHit (center : Vector3) (radius : F) (ray : Ray) (rayT : Interval) :
    Option Hit :=
  let oc := Vector3.vsub center ray.origin
  let a := Vector3.lengthSquared ray.direction
  let h := Vector3.dot ray.direction oc
  let c := F.sub (Vector3.lengthSquared oc) (F.powi radius 2)
  let discriminant := F.sub (F.powi h 2) (F.mul a c)
  if F.lt discriminant (.fin 0) then
    none
  else
    let sqrtd := F.sqrt discriminant
    let root1 := F.div (F.sub h sqrtd) a
    let root2 := F.div (F.add h sqrtd) a
    let tOpt : Option F :=
      if rayT.surrounds root1 then some root1
      else if ¬ rayT.surrounds root2 then none
      else some root2
    match tOpt with
    | none => none
    | some t =>
      let p := ray.at t
      let outwardNormal := Vector3.sdiv (Vector3.vsub p center) radius
      let fn := computeFaceNormal ray outwardNormal
      let theta := F.acos (F.neg p.y)
      let phi := F.add (F.atan2 (F.neg p.z) p.x) F.piF
      let alpha := F.div phi (F.mul (.fin 2) F.piF)
      let beta := F.div theta F.piF
      some ⟨t, p, alpha, beta, fn.1, fn.2⟩

/-- `geometry.rs::sphere::bounding_box`. -/
def sphereBB (center : Vector3) (radius : F) : AABB :=
  let radii : Vector3 := ⟨radius, radius, radius⟩
  AABB.newA (Vector3.vadd center radii) (Vector3.vsub center radii)

/-- `geometry.rs::quad::hit`. -/
def quadHit (q u v norm : Vector3) (d : F) (w : Vector3) (ray : Ray)
    (rayT : Interval) : Option Hit :=
  match uvHit q u v norm d w ray rayT with
  | none => none
  | some uh =>
    if ¬ Interval.unit.contains uh.alpha || ¬ Interval.unit.contains uh.beta then
      none
    else
      let fn := computeFaceNormal ray norm
      some ⟨uh.t, uh.p, uh.alpha, uh.beta, fn.1, fn.2⟩

/-- `geometry.rs::quad::bounding_box`: box of the diagonal `q → q+u+v`,
padded (the padding is spec-modelled, see `AABB.padded`). -/
def quadBB (q u v : Vector3) : AABB :=
  (AABB.newA q (Vector3.vadd (Vector3.vadd q u) v)).padded (.fin (mkRat 1 10000))

/-- `geometry.rs::triangle::hit`. -/
def triangleHit (q u v norm : Vector3) (d : F) (w : Vector3) (ray : Ray)
    (rayT : Interval) : Option Hit :=
  match uvHit q u v norm d w ray rayT with
  | none => none
  | some uh =>
    if ¬ (F.le (.fin 0) uh.alpha && F.le (.fin 0) uh.beta &&
          F.le (F.add uh.alpha uh.beta) (.fin 1)) then
      none
    else
      let fn := computeFaceNormal ray norm
      some ⟨uh.t, uh.p, uh.alpha, uh.beta, fn.1, fn.2⟩

/-- `geometry.rs::triangle::bounding_box`: merge of the two edge boxes,
padded. -/
def triangleBB (q u v : Vector3) : AABB :=
  (AABB.merge (AABB.newA q (Vector3.vadd q u)) (AABB.newA q (Vector3.vadd q v))).padded
    (.fin (mkRat 1 10000))

/-- `geometry.rs`: the `Geometry` sum type with its precomputed fields. -/
inductive Geometry where
  | sphereG (center : Vector3) (radius : F) : Geometry
  | quadG (q u v norm : Vector3) (d : F) (w : Vector3) : Geometry
  | triangleG (q u v norm : Vector3) (d : F) (w : Vector3) : Geometry
deriving DecidableEq
namespace Geometry

/-- `Geometry::sphere` smart constructor; `none` models the
`ConstructSphereError` on a negative radius. -/
def sphere (center : Vector3) (radius : F) : Option Geometry :=
  if F.lt radius (.fin 0) then none else some (sphereG center radius)

/-- `Geometry::quadrilateral` smart constructor (precomputes `norm`, `d`, `w`). -/
def quadrilateral (q u v : Vector3) : Geometry :=
  let n := Vector3.cross u v
  let norm := Vector3.toUnit n
  quadG q u v norm (Vector3.dot norm q) (Vector3.sdiv n (Vector3.dot n n))

/-- `Geometry::triangle` smart constructor (precomputes `norm`, `d`, `w`). -/
def triangle (q u v : Vector3) : Geometry :=
  let n := Vector3.cross u v
  let norm := Vector3.toUnit n
  triangleG q u v norm (Vector3.dot norm q) (Vector3.sdiv n (Vector3.dot n n))

/-- `Geometry::hit`. -/
def hit (g : Geometry) (ray : Ray) (rayT : Interval) : Option Hit :=
  match g with
  | sphereG center radius => sphereHit center radius ray rayT
  | quadG q u v norm d w => quadHit q u v norm d w ray rayT
  | triangleG q u v norm d w => triangleHit q u v norm d w ray rayT

/-- `Geometry::bounding_box`. -/
def boundingBox : Geometry → AABB
  | sphereG center radius => sphereBB center radius
  | quadG q u v _ _ _ => quadBB q u v
  | triangleG q u v _ _ _ => triangleBB q u v
end Geometry

/-- `material.rs`: the `Material` sum type. -/
inductive Material where
  | lambertian (albedo : Vector3) : Material
  | metal (albedo : Vector3) (fuzz_radius : F) : Material
  | dielectric (refraction_index : F) : Material
  | diffuseLight (emit : Vector3) : Material
  | uvGradient (intensity : F) : Material
deriving DecidableEq

/-- `material.rs`: the `Scatter` record. -/
structure Scatter where
  ray : Ray
  attenuation : Vector3
deriving DecidableEq

/-- `material.rs::reflectance` (Schlick's approximation). -/
def reflectance (cosTheta refractionIndex : F) : F :=
  let r0 := F.powi (F.div (F.sub (.fin 1) refractionIndex)
    (F.add (.fin 1) refractionIndex)) 2
  F.add r0 (F.mul (F.sub (.fin 1) r0) (F.powi (F.sub (.fin 1) cosTheta) 5))

/-- `material.rs::dielectric::scatter`.  The call `random::<f64>()` is made
explicit as the parameter `xi` (the outcome of the uniform draw in `[0,1)`). -/
def dielectricScatter (refractionIndex : F) (ray : Ray) (hit : Hit) (xi : F) :
    Option Scatter :=
  let rIn := Vector3.toUnit ray.direction
  let etaInOverEtaOut :=
    if hit.front_face then F.div (.fin 1) refractionIndex else refractionIndex
  let cosTheta := F.clampRust (Vector3.dot (Vector3.vneg rIn) hit.face_normal)
    (.fin (-1)) (.fin 1)
  let sinTheta := F.sqrt (F.sub (.fin 1) (F.powi cosTheta 2))
  let rOut :=
    if F.lt (.fin 1) (F.mul etaInOverEtaOut sinTheta) ||
       F.lt xi (reflectance cosTheta etaInOverEtaOut) then
      Vector3.reflect rIn hit.face_normal
    else
      Vector3.refract rIn hit.face_normal etaInOverEtaOut
  some ⟨⟨hit.p, rOut⟩, ⟨.fin 1, .fin 1, .fin 1⟩⟩

/-- `surface.rs`: `Surface { geometry, material }`. -/
structure Surface where
  geometry : Geometry
  material : Material
deriving DecidableEq

/-- `<Surface as Hittable>::hit`. -/
def surfaceHit (s : Surface) (ray : Ray) (rayT : Interval) :
    Option (Hit × Material) :=
  (s.geometry.hit ray rayT).map (fun h => (h, s.material))

/-- `<Surface as Hittable>::bounding_box`. -/
def surfaceBB (s : Surface) : AABB := s.geometry.boundingBox

/-- `<&[Surface] as Hittable>::hit`: the brute-force linear scan keeping the
nearest hit. -/
def sliceHit (surfaces : List Surface) (ray : Ray) (rayT : Interval) :
    Option (Hit × Material) :=
  surfaces.foldl
    (fun acc e =>
      match acc, surfaceHit e ray rayT with
      | none, none => none
      | none, some first => some first
      | some best, none => some best
      | some best, some found =>
        some (if F.lt found.1.t best.1.t then found else best))
    none

/-- `<&[Surface] as Hittable>::bounding_box`. -/
def sliceBB (surfaces : List Surface) : AABB :=
  (surfaces.map surfaceBB).foldl AABB.merge AABB.emptyA

/-- `camera.rs::linear_to_gamma`. -/
def linearToGamma (linearComponent : F) : F :=
  if F.lt (.fin 0) linearComponent then F.sqrt linearComponent else .fin 0

/-- Rust `as u8` saturating cast from `f64` (truncation toward zero, NaN to 0). -/
def f64ToU8 : F → ℕ
  | .nan => 0
  | .inf => 255
  | .ninf => 0
  | .fin q => if q < 0 then 0 else if 255 < q then 255 else (Rat.floor q).toNat

/-- The per-channel pixel path of `camera.rs::ppm_pixel`: gamma correction,
clamping into `[0, 0.999]`, scaling by `255.999`, and the `u8` cast. -/
def ppmChannel (c : F) : ℕ :=
  let intensity : Interval := ⟨.fin 0, .fin (mkRat 999 1000)⟩
  f64ToU8 (F.mul (.fin (mkRat 255999 1000)) (intensity.clamp (linearToGamma c)))

/-- `bvh/partition.rs`: the `Axis` helper enum. -/
inductive Axis where
  | X : Axis
  | Y : Axis
  | Z : Axis
deriving DecidableEq

/-- `bvh/partition.rs::get_component`. -/
def getComponent (axis : Axis) (v : Vector3) : F :=
  match axis with
  | .X => v.x
  | .Y => v.y
  | .Z => v.z

/-- `bvh/partition.rs::longest_axis`: `max_by` over `[X, Y, Z]` with
`total_cmp` on the extents; Rust `max_by` keeps the last of equal maxima. -/
def longestAxis (bb : AABB) : Axis :=
  let extent := fun a =>
    F.sub (getComponent a bb.max) (getComponent a bb.min)
  let pick := fun (acc e : Axis) =>
    if F.totalCmp (extent acc) (extent e) = .gt then acc else e
  pick (pick .X .Y) .Z

/-- Swap the entries at two indices of a list (identity when out of bounds). -/
def listSwap (l : List α) (i j : ℕ) : List α :=
  match l.get? i, l.get? j with
  | some xi, some xj => (l.set i xj).set j xi
  | _, _ => l

/-- First index `i` in `[lo, lo+n)` with `p l[i]`. -/
def findIdxIn (p : α → Bool) (l : List α) : ℕ → ℕ → Option ℕ
  | _, 0 => none
  | lo, n + 1 =>
    match l.get? lo with
    | none => none
    | some x => if p x then some lo else findIdxIn p l (lo + 1) n

/-- Last index `i` in `[lo, lo+n)` with `p l[i]`. -/
def rfindIdxIn (p : α → Bool) (l : List α) (lo : ℕ) : ℕ → Option ℕ
  | 0 => none
  | n + 1 =>
    match l.get? (lo + n) with
    | none => rfindIdxIn p l lo n
    | some x => if p x then some (lo + n) else rfindIdxIn p l lo n

/-- The double-ended swap loop of `bvh/partition.rs::partition_in_place`:
find the first non-`pred` element from the front, the last `pred` element
from the back, swap, and continue on the narrowed range. -/
def swapLoop (pred : α → Bool) : ℕ → List α → ℕ → ℕ → List α
  | 0, l, _, _ => l
  | fuel + 1, l, lo, hi =>
    match findIdxIn (fun x => ¬ pred x) l lo (hi - lo) with
    | none => l
    | some f =>
      match rfindIdxIn pred l (f + 1) (hi - (f + 1)) with
      | none => l
      | some r => swapLoop pred fuel (listSwap l f r) (f + 1) r

/-- `bvh/partition.rs::partition_in_place`: swap loop followed by
`split_at(partition_point pred)`; on the partitioned result the partition
point is the number of `pred` elements. -/
def partitionInPlace (pred : α → Bool) (l : List α) : List α × List α :=
  let l1 := swapLoop pred l.length l 0 l.length
  (l1.take (l1.countP pred), l1.drop (l1.countP pred))

/-- Insert into a sorted list by a boolean `le` (the sort model for Rust's
`sort_unstable_by`). -/
def insertLe (le : α → α → Bool) (x : α) : List α → List α
  | [] => [x]
  | y :: ys => if le x y then x :: y :: ys else y :: insertLe le x ys

/-- Insertion sort by a boolean `le`; models `sort_unstable_by` (any
comparison sort produces a sorted permutation; concrete claims only use
inputs with pairwise distinct keys, where every comparison sort agrees). -/
def sortLe (le : α → α → Bool) : List α → List α
  | [] => []
  | x :: xs => insertLe le x (sortLe le xs)

/-- `bvh/partition.rs::longest_axis_bisect_slice`. -/
def longestAxisBisectSlice (surfaces : List Surface) :
    List Surface × List Surface :=
  let bb := sliceBB surfaces
  let axis := longestAxis bb
  let sorted := sortLe
    (fun a b =>
      F.totalCmp (getComponent axis (surfaceBB a).min)
        (getComponent axis (surfaceBB b).min) ≠ .gt)
    surfaces
  (sorted.take (sorted.length / 2), sorted.drop (sorted.length / 2))

/-- `bvh/partition.rs::longest_axis_midpoint`. -/
def longestAxisMidpoint (surfaces : List Surface) :
    List Surface × List Surface :=
  let bb := sliceBB surfaces
  let axis := longestAxis bb
  let midpoint := getComponent axis bb.centroid
  partitionInPlace
    (fun s => F.lt (getComponent axis (surfaceBB s).centroid) midpoint)
    surfaces

/-- `bvh/partition.rs::sah::surface_area_heuristic`. -/
def surfaceAreaHeuristic (left : AABB) (nLeft : ℕ) (right : AABB)
    (nRight : ℕ) (bb : AABB) : F :=
  let saf := fun (b : AABB) =>
    let dims := b.dimensions
    F.add (F.add (F.mul dims.x dims.y) (F.mul dims.x dims.z)) (F.mul dims.y dims.z)
  let parentSaf := saf bb
  let pLeft := F.div (saf left) parentSaf
  let pRight := F.div (saf right) parentSaf
  F.add (.fin 1)
    (F.add (F.mul pLeft (.fin (nLeft : ℚ))) (F.mul pRight (.fin (nRight : ℚ))))

/-- `bvh/partition.rs::sah::bounding_boxes_prefix_list` (running merges,
including the current element). -/
def mergeScan (acc : AABB) : List AABB → List AABB
  | [] => []
  | b :: bs =>
    let acc1 := AABB.merge acc b
    acc1 :: mergeScan acc1 bs

/-- `bvh/partition.rs::sah::SplitVolumes`. -/
structure SplitVolumes where
  left : AABB
  right : AABB
  split_at : F

/-- `bvh/partition.rs::sah::splits_cache`: per-axis sorted prefix/suffix box
accumulations with `±inf` sinks at both ends. -/
def splitsCache (surfaces : List Surface) (axis : Axis) : List SplitVolumes :=
  let sortedBoxes := sortLe
    (fun a b =>
      F.totalCmp (getComponent axis (AABB.centroid a))
        (getComponent axis (AABB.centroid b)) ≠ .gt)
    (surfaces.map surfaceBB)
  let forwardPf := mergeScan AABB.emptyA sortedBoxes
  let backwardPf := (mergeScan AABB.emptyA sortedBoxes.reverse).reverse
  let mids := ((forwardPf.zip backwardPf).enum).map
    (fun p => SplitVolumes.mk p.2.1 p.2.2
      (getComponent axis (AABB.centroid ((sortedBoxes.get? p.1).getD AABB.emptyA))))
  (⟨AABB.emptyA, AABB.emptyA, F.ninf⟩ : SplitVolumes) :: mids ++
    [⟨AABB.emptyA, AABB.emptyA, F.inf⟩]

/-- Evaluate one candidate splitting plane: `none` models the `usize`
underflow panic in `partition_point(...) - 1` (no split strictly below the
intercept), `some none` a candidate filtered out for an empty side. -/
def sahEvalCandidate (splitsX splitsY splitsZ : List SplitVolumes)
    (nSurfaces : ℕ) (bb : AABB) (cand : Axis × F) :
    Option (Option (Axis × F × F)) :=
  let splits : List SplitVolumes :=
    match cand.1 with
    | .X => splitsX
    | .Y => splitsY
    | .Z => splitsZ
  let cnt := splits.countP (fun sv => F.lt sv.split_at cand.2)
  if cnt = 0 then
    none
  else
    let nLeft := cnt - 1
    let sv := (splits.get? nLeft).getD ⟨AABB.emptyA, AABB.emptyA, F.nan⟩
    if AABB.beqA sv.left AABB.emptyA || AABB.beqA sv.right AABB.emptyA then
      some none
    else
      some (some (cand.1, cand.2,
        surfaceAreaHeuristic sv.left nLeft sv.right (nSurfaces - nLeft) bb))

/-- Evaluate all candidates, aborting (`none`) if any of them panics. -/
def sahEvalAll (f : Axis × F → Option (Option (Axis × F × F))) :
    List (Axis × F) → Option (List (Axis × F × F))
  | [] => some []
  | c :: cs =>
    match f c, sahEvalAll f cs with
    | none, _ => none
    | _, none => none
    | some none, some rest => some rest
    | some (some v), some rest => some (v :: rest)

/-- Rust `Iterator::min_by` on the cost (`total_cmp`); keeps the first of
equal minima. -/
def minByCost : List (Axis × F × F) → Option (Axis × F × F)
  | [] => none
  | x :: xs =>
    some (xs.foldl (fun acc e => if F.totalCmp e.2.2 acc.2.2 = .lt then e else acc) x)

/-- `bvh/partition.rs::sah::partition_impl`; `none` models a panic (either
the `usize` underflow or the `expect("No valid splitting plane")`). -/
def sahPartitionImpl (surfaces : List Surface) (planes : List (Axis × F)) :
    Option (List Surface × List Surface) :=
  let splitsX := splitsCache surfaces .X
  let splitsY := splitsCache surfaces .Y
  let splitsZ := splitsCache surfaces .Z
  let bb := sliceBB surfaces
  match sahEvalAll (sahEvalCandidate splitsX splitsY splitsZ surfaces.length bb) planes with
  | none => none
  | some evaluated =>
    match minByCost evaluated with
    | none => none
    | some best =>
      some (partitionInPlace
        (fun s => F.lt (getComponent best.1 (surfaceBB s).centroid) best.2.1)
        surfaces)

/-- `bvh/partition.rs::sah::equal_size::partition`'s candidate planes. -/
def sahEqualSizePlanes (surfaces : List Surface) (buckets : ℕ) :
    List (Axis × F) :=
  let bb := sliceBB surfaces
  (([Axis.X, Axis.Y, Axis.Z].map (fun axis =>
    let start := getComponent axis bb.min
    let step := F.div (getComponent axis bb.dimensions) (.fin (buckets : ℚ))
    (List.range' 1 (buckets - 1)).map
      (fun i => (axis, F.add start (F.mul (.fin (i : ℚ)) step))))).flatten)

/-- `bvh/partition.rs::sah::per_surface::partition`'s candidate planes. -/
def sahPerSurfacePlanes (surfaces : List Surface) : List (Axis × F) :=
  ((surfaces.map (fun s =>
    let c := (surfaceBB s).centroid
    [Axis.X, Axis.Y, Axis.Z].map (fun axis => (axis, getComponent axis c)))).flatten)

/-- `bvh/mod.rs::SAHBucketStrategy`. -/
inductive SAHBucketStrategy where
  | equalSize (buckets : ℕ) : SAHBucketStrategy
  | perSurface : SAHBucketStrategy

/-- `bvh/mod.rs::PartitionBy`. -/
inductive PartitionBy where
  | longestAxisBisectSlice : PartitionBy
  | longestAxisMidpoint : PartitionBy
  | surfaceAreaHeuristic (s : SAHBucketStrategy) : PartitionBy

/-- `PartitionBy::partition`; `none` models a panic inside the SAH code. -/
def PartitionBy.run : PartitionBy → List Surface → Option (List Surface × List Surface)
  | .longestAxisBisectSlice, surfaces => some (RT.longestAxisBisectSlice surfaces)
  | .longestAxisMidpoint, surfaces => some (RT.longestAxisMidpoint surfaces)
  | .surfaceAreaHeuristic (.equalSize buckets), surfaces =>
    sahPartitionImpl surfaces (sahEqualSizePlanes surfaces buckets)
  | .surfaceAreaHeuristic .perSurface, surfaces =>
    sahPartitionImpl surfaces (sahPerSurfacePlanes surfaces)

/-- `bvh/mod.rs::Node`. -/
inductive Node where
  | placeholder : Node
  | internal (rightIdx : Option ℕ) (bb : AABB) : Node
  | leaf (s : Surface) : Node
deriving DecidableEq

/-- `Node::bounding_box`; `none` models the `unreachable!()` panic on a
placeholder. -/
def nodeBoundingBox : Node → Option AABB
  | .placeholder => none
  | .internal _ bb => some bb
  | .leaf s => some (surfaceBB s)

/-- Outcome of running embedded Rust code that can panic. -/
inductive Res (α : Type) where
  | ok (a : α) : Res α
  | panicked : Res α
deriving DecidableEq

/-- `bvh/mod.rs::build_tree_rec`, with explicit fuel: `none` means the fuel
ran out (the Rust recursion diverges on inputs where no fuel suffices),
`some .panicked` models a Rust panic, `some (.ok nodes)` a normal return. -/
def buildFuel (partitionBy : PartitionBy) : ℕ → List Node → List Surface →
    Option (Res (List Node))
  | 0, _, _ => none
  | _ + 1, nodesAcc, surfaces =>
    if surfaces.length = 1 then
      match surfaces.get? 0 with
      | some s => some (.ok (nodesAcc ++ [.leaf s]))
      | none => some .panicked
    else if surfaces.length = 2 then
      match partitionBy.run surfaces with
      | none => some .panicked
      | some (l, r) =>
        match l.get? 0, r.get? 0 with
        | some a, some b =>
          some (.ok (nodesAcc ++
            [.internal (some (nodesAcc.length + 2))
              (AABB.merge (surfaceBB a) (surfaceBB b)),
             .leaf a, .leaf b]))
        | _, _ => some .panicked
    else
      match partitionBy.run surfaces with
      | none => some .panicked
      | some (l, r) =>
        match buildFuel partitionBy ‹ℕ› (nodesAcc ++ [.placeholder]) l with
        | none => none
        | some .panicked => some .panicked
        | some (.ok nodes1) =>
          match buildFuel partitionBy ‹ℕ› nodes1 r with
          | none => none
          | some .panicked => some .panicked
          | some (.ok nodes2) =>
            let parentIdx := nodesAcc.length
            let rightIdx := nodes1.length
            match (nodes2.get? (parentIdx + 1)).bind nodeBoundingBox,
                  (nodes2.get? rightIdx).bind nodeBoundingBox with
            | some bbL, some bbR =>
              some (.ok (nodes2.set parentIdx
                (.internal (some rightIdx) (AABB.merge bbL bbR))))
            | _, _ => some .panicked

/-- `BVH::from_slice`. -/
def fromSlice (surfaces : List Surface) (partitionBy : PartitionBy) (fuel : ℕ) :
    Option (Res (List Node)) :=
  if surfaces.isEmpty then some (.ok []) else buildFuel partitionBy fuel [] surfaces

/-- The explicit-stack loop of `<BVH as Hittable>::hit`, with fuel. -/
def hitLoop (tree : List Node) (ray : Ray) (itvMin : F) :
    ℕ → List ℕ → F → Option (Hit × Material) →
    Option (Res (Option (Hit × Material)))
  | 0, _, _, _ => none
  | _ + 1, [], _, acc => some (.ok acc)
  | fuel + 1, i :: rest, curMax, acc =>
    match tree.get? i with
    | none => some .panicked
    | some node =>
      match nodeBoundingBox node with
      | none => some .panicked
      | some bb =>
        if ¬ bb.hit ray ⟨itvMin, curMax⟩ then
          hitLoop tree ray itvMin fuel rest curMax acc
        else
          match node with
          | .placeholder => some .panicked
          | .internal maybeRightIdx _ =>
            let stack1 := match maybeRightIdx with
              | some rightIdx => rightIdx :: rest
              | none => rest
            let stack2 := if i + 1 < tree.length then (i + 1) :: stack1 else stack1
            hitLoop tree ray itvMin fuel stack2 curMax acc
          | .leaf s =>
            match surfaceHit s ray ⟨itvMin, curMax⟩ with
            | none => hitLoop tree ray itvMin fuel rest curMax acc
            | some (hit, material) =>
              match acc with
              | some (nearestHit, nearestMaterial) =>
                if F.lt nearestHit.t hit.t then
                  hitLoop tree ray itvMin fuel rest curMax
                    (some (nearestHit, nearestMaterial))
                else
                  hitLoop tree ray itvMin fuel rest hit.t (some (hit, material))
              | none =>
                hitLoop tree ray itvMin fuel rest hit.t (some (hit, material))

/-- `<BVH as Hittable>::hit`: run the loop from the stack `[0]`. -/
def bvhHitFuel (tree : List Node) (ray : Ray) (rayT : Interval) (fuel : ℕ) :
    Option (Res (Option (Hit × Material))) :=
  hitLoop tree ray rayT.min fuel [0] rayT.max none

/-- `<BVH as Hittable>::bounding_box`. -/
def bvhBoundingBox (tree : List Node) : Option AABB :=
  if tree.isEmpty then some AABB.emptyA else (tree.get? 0).bind nodeBoundingBox

/-- The surfaces of the `Leaf` nodes, in array order. -/
def leafSurfs (tree : List Node) : List Surface :=
  tree.filterMap (fun n => match n with | .leaf s => some s | _ => none)

/-- The bounding boxes of the `Leaf` nodes, in array order. -/
def leafBoxes (tree : List Node) : List AABB := (leafSurfs tree).map surfaceBB

/-- Fold of `AABB::merge` over a non-empty list (the "merge of all leaf
boxes"); `EMPTY` for the empty list. -/
def foldBoxes : List AABB → AABB
  | [] => AABB.emptyA
  | b :: bs => bs.foldl AABB.merge b

/-- `build_tree_rec` diverges on the given input: no amount of fuel returns. -/
def buildDiverges (partitionBy : PartitionBy) (surfaces : List Surface) : Prop :=
  ∀ fuel, buildFuel partitionBy fuel [] surfaces = none

/-- The structural invariant of a subtree emitted by `build_tree_rec` at base
offset `base`: correct node count, leaves a permutation of the input group,
no placeholders, right-child indices strictly between the left child and the
end of the subtree, and the root box equal to the merge of all leaf boxes. -/
structure TreeOK (base : ℕ) (new : List Node) (s : List Surface) : Prop where
  len : new.length = 2 * s.length - 1
  spos : 1 ≤ s.length
  perm : List.Perm (leafSurfs new) s
  inv : ∀ j node, new.get? j = some node →
    node ≠ .placeholder ∧
    ∀ ro bb, node = .internal ro bb →
      ∃ r, ro = some r ∧ base + j + 1 < r ∧ r < base + new.length
  root : ∃ b0, new.get? 0 = some b0 ∧
    nodeBoundingBox b0 = some (foldBoxes (leafBoxes new))

/-- Termination measure for the explicit-stack traversal: pushed child
indices are strictly larger than the popped index, so the weighted sum
`Σ 2^(n - i)` strictly decreases. -/
def stackMeasure (n : ℕ) (stack : List ℕ) : ℕ :=
  (stack.map (fun i => 2 ^ (n - i))).sum

/-- The per-tree index invariant (contents of claim C7). -/
def TreeInv (tree : List Node) : Prop :=
  ∀ i node, tree.get? i = some node →
    node ≠ .placeholder ∧
    ∀ ro bb, node = .internal ro bb →
      ∃ r, ro = some r ∧ i + 1 < r ∧ r < tree.length

def matD : Material := .dielectric (.fin 1)

def sphA : Surface := ⟨.sphereG ⟨.fin 0, .fin 0, .fin 0⟩ (.fin 1), matD⟩

def sphB : Surface := ⟨.sphereG ⟨.fin 4, .fin 0, .fin 0⟩ (.fin 1), matD⟩

def sceneAB : List Surface := [sphA, sphB]

def treeAB : List Node :=
  [.internal (some 2) (AABB.merge (surfaceBB sphA) (surfaceBB sphB)),
   .leaf sphA, .leaf sphB]

def rayX : Ray := ⟨⟨.fin (-3), .fin 0, .fin 0⟩, ⟨.fin 1, .fin 0, .fin 0⟩⟩

def itv001 : Interval := ⟨.fin (mkRat 1 1000), .inf⟩

/-- The amended C4 side condition, checkable by evaluation: every recursive
partition of the build produces two non-empty groups (fuel-indexed like the
build itself). -/
def properSplits (pb : PartitionBy) : ℕ → List Surface → Bool
  | 0, _ => false
  | fuel + 1, s =>
    if s.length = 1 then true
    else if s.length = 2 then
      match pb.run s with
      | none => false
      | some (l, r) => !l.isEmpty && !r.isEmpty
    else
      match pb.run s with
      | none => false
      | some (l, r) =>
        !l.isEmpty && !r.isEmpty && properSplits pb fuel l && properSplits pb fuel r

def sphM0 : Surface := ⟨.sphereG ⟨.fin 0, .fin 0, .fin 0⟩ (.fin (mkRat 1 2)), matD⟩

def sphM2 : Surface := ⟨.sphereG ⟨.fin 2, .fin 0, .fin 0⟩ (.fin (mkRat 1 2)), matD⟩

def sphM10 : Surface := ⟨.sphereG ⟨.fin 10, .fin 0, .fin 0⟩ (.fin (mkRat 1 2)), matD⟩

/-- The fold step of `<&[Surface] as Hittable>::hit`, named for reasoning. -/
def sliceStep (ray : Ray) (rayT : Interval)
    (acc : Option (Hit × Material)) (e : Surface) : Option (Hit × Material) :=
  match acc, surfaceHit e ray rayT with
  | none, none => none
  | none, some first => some first
  | some best, none => some best
  | some best, some found =>
    some (if F.lt found.1.t best.1.t then found else best)

def csMat : Material := .dielectric (.fin 1)

def csSphere : Surface := ⟨.sphereG ⟨.fin 0, .fin 0, .fin 0⟩ (.fin 1), csMat⟩

def cRay : Ray := ⟨⟨.fin 1, .fin (-2), .fin 0⟩, ⟨.fin 0, .fin 1, .fin 0⟩⟩

def cItv : Interval := ⟨.fin (mkRat 1 1000), .inf⟩

def hitAB : Hit :=
  ⟨.fin 2, ⟨.fin (-1), .fin 0, .fin 0⟩, .nan, .nan, true, ⟨.fin (-1), .fin 0, .fin 0⟩⟩

/-- The containment notion of the bounding-volume soundness property
(claim C2): a point is inside an axis-aligned box when every coordinate
lies between the box's corners. -/
def AABB.containsPoint (bb : AABB) (p : Vector3) : Bool :=
  F.le bb.min.x p.x && F.le p.x bb.max.x &&
  F.le bb.min.y p.y && F.le p.y bb.max.y &&
  F.le bb.min.z p.z && F.le p.z bb.max.z

def c2Geom : Geometry :=
  Geometry.quadrilateral ⟨.fin 0, .fin 0, .fin 0⟩ ⟨.fin 1, .fin 0, .fin 0⟩
    ⟨.fin (-1), .fin 1, .fin 0⟩

def c2Ray : Ray := ⟨⟨.fin 1, .fin 0, .fin (-1)⟩, ⟨.fin 0, .fin 0, .fin 1⟩⟩

def c2Itv : Interval := ⟨.fin (mkRat 1 1000), .inf⟩

def c3Ray : Ray := ⟨⟨.fin 0, .fin 0, .fin 0⟩, ⟨.fin 1, .fin 0, .fin 0⟩⟩

def c3Itv : Interval := ⟨.fin (mkRat 1 1000), .inf⟩

def c8Box : AABB := ⟨⟨.fin 0, .fin 0, .fin 0⟩, ⟨.fin 0, .fin 1, .fin 1⟩⟩

def c8Ray : Ray :=
  ⟨⟨.fin 0, .fin (mkRat 1 2), .fin (mkRat 1 2)⟩, ⟨.fin 0, .fin 1, .fin 0⟩⟩

def c8Itv : Interval := ⟨.fin (mkRat 1 1000), .fin 100⟩

def c9Ray : Ray :=
  ⟨⟨.fin 0, .fin 0, .fin 0⟩, ⟨.fin (mkRat 3 5), .fin (mkRat (-4) 5), .fin 0⟩⟩

def c9Hit : Hit :=
  ⟨.fin 1, ⟨.fin 0, .fin 0, .fin 0⟩, .fin 0, .fin 0, true, ⟨.fin 0, .fin 1, .fin 0⟩⟩
end RT


namespace RT

@[simp] theorem qadd_eq (a b : ℚ) : qadd a b = a + b := (Rat.add_def' a b).symm

@[simp] theorem qsub_eq (a b : ℚ) : qsub a b = a - b := (Rat.sub_def' a b).symm

@[simp] theorem qmul_eq (a b : ℚ) : qmul a b = a * b := by
  rw [Rat.mul_def, Rat.normalize_eq_mkRat]; rfl

@[simp] theorem qneg_eq (a : ℚ) : qneg a = -a := by
  have h : -(mkRat a.num a.den) = mkRat (-a.num) a.den := Rat.neg_mkRat _ _
  rw [qneg, ← h, Rat.mkRat_self]

@[simp] theorem qabs_eq (a : ℚ) : qabs a = |a| := by
  rcases le_or_lt 0 a with h | h
  · rw [abs_of_nonneg h, qabs, Int.natAbs_of_nonneg (Rat.num_nonneg.mpr h), Rat.mkRat_self]
  · rw [abs_of_neg h, qabs]
    have hn : (a.num.natAbs : ℤ) = -a.num :=
      Int.ofNat_natAbs_of_nonpos (le_of_lt (Rat.num_neg.mpr h))
    rw [hn, ← Rat.neg_mkRat, Rat.mkRat_self]

@[simp] theorem qdiv_eq (a b : ℚ) : qdiv a b = a / b := by
  by_cases hb : b = 0
  · subst hb
    simp [qdiv, Rat.divInt_zero]
  · have hbn : b.num ≠ 0 := Rat.num_ne_zero.mpr hb
    have had : (a.den : ℤ) ≠ 0 := Int.ofNat_ne_zero.mpr a.den_nz
    calc qdiv a b = Rat.divInt a.num a.den * Rat.divInt b.den b.num :=
          (Rat.divInt_mul_divInt _ _ had hbn).symm
      _ = a * b.inv := by rw [Rat.num_divInt_den, ← Rat.inv_def]
      _ = a / b := (Rat.div_def a b).symm

theorem sqrtDown_sq_le (r n : ℕ) : sqrtDown r n * sqrtDown r n ≤ n := by
  induction r with
  | zero => simp [sqrtDown]
  | succ r ih =>
    rw [sqrtDown]
    split
    · assumption
    · exact ih

theorem le_sqrtDown {k r n : ℕ} (hk : k ≤ r) (h : k * k ≤ n) : k ≤ sqrtDown r n := by
  induction r with
  | zero => omega
  | succ r ih =>
    rw [sqrtDown]
    by_cases hc : (r + 1) * (r + 1) ≤ n
    · rw [if_pos hc]
      exact hk
    · rw [if_neg hc]
      have hkr : k ≤ r := by
        rcases Nat.lt_or_ge k (r + 1) with hlt | hge
        · omega
        · exfalso
          have hke : k = r + 1 := by omega
          subst hke
          exact hc h
      exact ih hkr

theorem natSqrtLin_sq (m : ℕ) : natSqrtLin (m * m) = m := by
  rcases Nat.eq_zero_or_pos m with rfl | hm
  · rfl
  · have h1 : natSqrtLin (m * m) * natSqrtLin (m * m) ≤ m * m := sqrtDown_sq_le _ _
    have hmm : m ≤ m * m := Nat.le_mul_of_pos_left m hm
    have h2 : m ≤ natSqrtLin (m * m) := le_sqrtDown hmm (le_refl _)
    have h3 : natSqrtLin (m * m) ≤ m := by
      by_contra hc
      push_neg at hc
      have h4 : (m + 1) * (m + 1) ≤ natSqrtLin (m * m) * natSqrtLin (m * m) :=
        Nat.mul_le_mul hc hc
      nlinarith
    omega

theorem natSqrtLin_mono {a b : ℕ} (h : a ≤ b) : natSqrtLin a ≤ natSqrtLin b := by
  have h1 : natSqrtLin a * natSqrtLin a ≤ b := (sqrtDown_sq_le a a).trans h
  have h2 : natSqrtLin a ≤ b := by
    rcases Nat.eq_zero_or_pos (natSqrtLin a) with h0 | h0
    · omega
    · calc natSqrtLin a ≤ natSqrtLin a * natSqrtLin a := Nat.le_mul_of_pos_left _ h0
        _ ≤ b := h1
  exact le_sqrtDown h2 h1

theorem ratSqrt_nonneg (q : ℚ) : 0 ≤ ratSqrt q :=
  Rat.mkRat_nonneg (Int.ofNat_nonneg _) _

theorem ratSqrt_sq {q : ℚ} (h : 0 ≤ q) : ratSqrt (q * q) = q := by
  have hnum : (q * q).num = q.num * q.num := Rat.mul_self_num q
  have hden : (q * q).den = q.den * q.den := Rat.mul_self_den q
  have hqn : 0 ≤ q.num := Rat.num_nonneg.mpr h
  have htn : (q.num * q.num).toNat = q.num.toNat * q.num.toNat := by
    obtain ⟨n, hn⟩ := Int.eq_ofNat_of_zero_le hqn
    rw [hn, ← Nat.cast_mul, Int.toNat_natCast, Int.toNat_natCast]
  rw [ratSqrt, hnum, hden, intSqrtLin, htn, natSqrtLin_sq, natSqrtLin_sq]
  have : (q.num.toNat : ℤ) = q.num := Int.toNat_of_nonneg hqn
  rw [this, Rat.mkRat_self]

theorem ratSqrt_le_one {q : ℚ} (h0 : 0 ≤ q) (h1 : q ≤ 1) : ratSqrt q ≤ 1 := by
  have hqn : 0 ≤ q.num := Rat.num_nonneg.mpr h0
  have hdpos : (0 : ℚ) < (q.den : ℚ) := by
    exact_mod_cast Nat.pos_of_ne_zero q.den_nz
  have hnd : q.num ≤ (q.den : ℤ) := by
    have hq1 : (q.num : ℚ) / (q.den : ℚ) ≤ 1 := by
      rw [Rat.num_div_den]
      exact h1
    have := (div_le_one hdpos).mp hq1
    exact_mod_cast this
  have hmono : natSqrtLin q.num.toNat ≤ natSqrtLin q.den := natSqrtLin_mono (by omega)
  rw [ratSqrt, Rat.mkRat_eq_div, intSqrtLin]
  rcases Nat.eq_zero_or_pos (natSqrtLin q.den) with hz | hp
  · rw [hz]
    simp
  · rw [div_le_one (by exact_mod_cast hp)]
    exact_mod_cast hmono
namespace F

@[simp] theorem add_fin_fin (a b : ℚ) : add (fin a) (fin b) = fin (a + b) := by
  show fin (qadd a b) = _
  rw [qadd_eq]

@[simp] theorem neg_fin (a : ℚ) : neg (fin a) = fin (-a) := by
  show fin (qneg a) = _
  rw [qneg_eq]

@[simp] theorem sub_fin_fin (a b : ℚ) : sub (fin a) (fin b) = fin (a - b) := by
  show add (fin a) (neg (fin b)) = _
  rw [neg_fin, add_fin_fin, sub_eq_add_neg]

@[simp] theorem mul_fin_fin (a b : ℚ) : mul (fin a) (fin b) = fin (a * b) := by
  show fin (qmul a b) = _
  rw [qmul_eq]

theorem div_fin_fin {a b : ℚ} (hb : b ≠ 0) : div (fin a) (fin b) = fin (a / b) := by
  show (if b = 0 then _ else fin (qdiv a b)) = _
  rw [if_neg hb, qdiv_eq]

@[simp] theorem abs_fin (a : ℚ) : abs (fin a) = fin |a| := by
  show fin (qabs a) = _
  rw [qabs_eq]

theorem sqrt_fin_nonneg {a : ℚ} (h : 0 ≤ a) : sqrt (fin a) = fin (ratSqrt a) := by
  show (if decide (a < 0) then nan else fin (ratSqrt a)) = _
  rw [decide_eq_false (not_lt.mpr h), if_neg (by simp)]

@[simp] theorem lt_fin_fin (a b : ℚ) : lt (fin a) (fin b) = decide (a < b) := rfl

@[simp] theorem le_fin_fin (a b : ℚ) : le (fin a) (fin b) = decide (a ≤ b) := rfl

@[simp] theorem beq_fin_fin (a b : ℚ) : beq (fin a) (fin b) = decide (a = b) := rfl

theorem lt_irrefl (x : F) : lt x x = false := by
  cases x <;> simp [lt]

theorem le_total_not_nan {x y : F} (hx : x ≠ nan) (hy : y ≠ nan) :
    le x y = true ∨ le y x = true := by
  cases x <;> cases y <;> simp_all [le, le_total]

theorem not_lt_of_le {x y : F} (h : le x y = true) : lt y x = false := by
  cases x <;> cases y <;> simp_all [le, lt]

theorem le_of_not_lt {x y : F} (hx : x ≠ nan) (hy : y ≠ nan) (h : lt x y = false) :
    le y x = true := by
  cases x <;> cases y <;> simp_all [le, lt]

theorem le_of_lt {x y : F} (h : lt x y = true) : le x y = true := by
  cases x <;> cases y <;> simp_all [le, lt]
  exact h.le

theorem lt_ne_nan {x y : F} (h : lt x y = true) : x ≠ nan ∧ y ≠ nan := by
  cases x <;> cases y <;> simp_all [lt]

theorem le_ne_nan {x y : F} (h : le x y = true) : x ≠ nan ∧ y ≠ nan := by
  cases x <;> cases y <;> simp_all [le]

theorem le_trans {x y z : F} (h1 : le x y = true) (h2 : le y z = true) :
    le x z = true := by
  cases x <;> cases y <;> cases z <;> simp_all [le]
  exact h1.trans h2

theorem lt_of_lt_of_le {x y z : F} (h1 : lt x y = true) (h2 : le y z = true) :
    lt x z = true := by
  cases x <;> cases y <;> cases z <;> simp_all [lt, le]
  exact h1.trans_le h2

theorem lt_of_le_of_lt {x y z : F} (h1 : le x y = true) (h2 : lt y z = true) :
    lt x z = true := by
  cases x <;> cases y <;> cases z <;> simp_all [lt, le]
  exact h1.trans_lt h2

theorem le_refl_not_nan {x : F} (hx : x ≠ nan) : le x x = true := by
  cases x <;> simp_all [le]

@[simp] theorem minR_nan_left (y : F) : minR nan y = y := rfl

@[simp] theorem minR_nan_right (x : F) : minR x nan = x := by cases x <;> rfl

@[simp] theorem minR_ninf_left (y : F) : minR ninf y = ninf := by cases y <;> rfl

@[simp] theorem minR_ninf_right (x : F) : minR x ninf = if x = nan then ninf else ninf := by
  cases x <;> rfl

@[simp] theorem minR_inf_inf : minR inf inf = inf := rfl

@[simp] theorem minR_inf_fin (b : ℚ) : minR inf (fin b) = fin b := rfl

@[simp] theorem minR_fin_inf (a : ℚ) : minR (fin a) inf = fin a := rfl

@[simp] theorem minR_fin_fin (a b : ℚ) : minR (fin a) (fin b) = fin (min a b) := by
  rw [minR]
  rcases le_or_lt a b with h | h
  · rw [decide_eq_true h, if_pos rfl, min_eq_left h]
  · rw [decide_eq_false (not_le.mpr h)]
    simp [min_eq_right h.le]

@[simp] theorem maxR_nan_left (y : F) : maxR nan y = y := rfl

@[simp] theorem maxR_nan_right (x : F) : maxR x nan = x := by cases x <;> rfl

@[simp] theorem maxR_inf_left (y : F) : maxR inf y = inf := by cases y <;> rfl

@[simp] theorem maxR_inf_right (x : F) : maxR x inf = if x = nan then inf else inf := by
  cases x <;> rfl

@[simp] theorem maxR_ninf_ninf : maxR ninf ninf = ninf := rfl

@[simp] theorem maxR_ninf_fin (b : ℚ) : maxR ninf (fin b) = fin b := rfl

@[simp] theorem maxR_fin_ninf (a : ℚ) : maxR (fin a) ninf = fin a := rfl

@[simp] theorem maxR_fin_fin (a b : ℚ) : maxR (fin a) (fin b) = fin (max a b) := by
  rw [maxR]
  rcases le_or_lt a b with h | h
  · rw [decide_eq_true h, if_pos rfl, max_eq_right h]
  · rw [decide_eq_false (not_le.mpr h)]
    simp [max_eq_left h.le]

theorem minR_assoc (a b c : F) : minR (minR a b) c = minR a (minR b c) := by
  cases a <;> cases b <;> cases c <;> simp [min_assoc]

theorem maxR_assoc (a b c : F) : maxR (maxR a b) c = maxR a (maxR b c) := by
  cases a <;> cases b <;> cases c <;> simp [max_assoc]
end F

theorem merge_assoc (a b c : AABB) :
    AABB.merge (AABB.merge a b) c = AABB.merge a (AABB.merge b c) := by
  simp [AABB.merge, F.minR_assoc, F.maxR_assoc]

theorem foldl_merge_eq (X : AABB) (l : List AABB) (h : l ≠ []) :
    l.foldl AABB.merge X = AABB.merge X (foldBoxes l) := by
  induction l generalizing X with
  | nil => exact absurd rfl h
  | cons b bs ih =>
    rcases bs with - | ⟨b2, bs2⟩
    · simp [foldBoxes]
    · rw [List.foldl_cons, ih (AABB.merge X b) (by simp)]
      rw [show foldBoxes (b :: b2 :: bs2) = AABB.merge b (foldBoxes (b2 :: bs2)) from ?_]
      · rw [merge_assoc]
      · exact (ih b (by simp)).symm.trans rfl ▸ rfl

theorem foldBoxes_cons_ne_nil (b : AABB) (bs : List AABB) (h : bs ≠ []) :
    foldBoxes (b :: bs) = AABB.merge b (foldBoxes bs) := by
  show bs.foldl AABB.merge b = _
  rw [foldl_merge_eq b bs h]

theorem foldBoxes_append (l1 l2 : List AABB) (h1 : l1 ≠ []) (h2 : l2 ≠ []) :
    foldBoxes (l1 ++ l2) = AABB.merge (foldBoxes l1) (foldBoxes l2) := by
  rcases l1 with - | ⟨b, bs⟩
  · exact absurd rfl h1
  · show ((bs ++ l2).foldl AABB.merge b) = _
    rw [List.foldl_append, foldl_merge_eq _ l2 h2]
    rfl

theorem getD_cons_set_perm (d x : α) :
    ∀ (xs : List α) (m : ℕ), m < xs.length →
      List.Perm (xs.getD m d :: xs.set m x) (x :: xs) := by
  intro xs
  induction xs with
  | nil =>
    intro m h
    simp at h
  | cons y ys ih =>
    intro m h
    cases m with
    | zero =>
      exact List.Perm.swap x y ys
    | succ m =>
      have hm : m < ys.length := by simpa using h
      have s1 : List.Perm (ys.getD m d :: y :: ys.set m x)
          (y :: ys.getD m d :: ys.set m x) := List.Perm.swap y (ys.getD m d) (ys.set m x)
      have s2 : List.Perm (y :: ys.getD m d :: ys.set m x) (y :: x :: ys) :=
        (ih m hm).cons y
      have s3 : List.Perm (y :: x :: ys) (x :: y :: ys) := List.Perm.swap x y ys
      exact (s1.trans s2).trans s3

theorem set_set_perm (d : α) :
    ∀ (l : List α) (i j : ℕ), i ≤ j → j < l.length →
      List.Perm ((l.set i (l.getD j d)).set j (l.getD i d)) l := by
  intro l
  induction l with
  | nil =>
    intro i j _ hj
    simp at hj
  | cons y ys ih =>
    intro i j hij hj
    cases i with
    | zero =>
      cases j with
      | zero => simp
      | succ m =>
        have hm : m < ys.length := by simpa using hj
        simpa using getD_cons_set_perm d y ys m hm
    | succ n =>
      cases j with
      | zero => omega
      | succ m =>
        have hm : m < ys.length := by simpa using hj
        simpa using (ih n m (by omega) hm).cons y

theorem listSwap_perm (l : List α) (i j : ℕ) : List.Perm (listSwap l i j) l := by
  unfold listSwap
  cases hgi : l.get? i with
  | none => exact List.Perm.refl l
  | some xi =>
    cases hgj : l.get? j with
    | none => exact List.Perm.refl l
    | some xj =>
      have hi : i < l.length := (List.get?_eq_some.mp hgi).1
      have hj : j < l.length := (List.get?_eq_some.mp hgj).1
      have hdi : l.getD i xi = xi := by
        rw [List.getD_eq_get?, hgi]
        rfl
      have hdj : l.getD j xi = xj := by
        rw [List.getD_eq_get?, hgj]
        rfl
      show List.Perm ((l.set i xj).set j xi) l
      rcases le_or_lt i j with hij | hji
      · have := set_set_perm xi l i j hij hj
        rw [hdi, hdj] at this
        exact this
      · have hcomm : (l.set i xj).set j xi = (l.set j xi).set i xj :=
          List.set_comm _ _ l (by omega)
        rw [hcomm]
        have := set_set_perm xi l j i (by omega) hi
        rw [hdi, hdj] at this
        exact this

theorem swapLoop_perm (pred : α → Bool) :
    ∀ (fuel : ℕ) (l : List α) (lo hi : ℕ), List.Perm (swapLoop pred fuel l lo hi) l := by
  intro fuel
  induction fuel with
  | zero =>
    intro l lo hi
    exact List.Perm.refl l
  | succ fuel ih =>
    intro l lo hi
    rw [swapLoop]
    split
    · exact List.Perm.refl l
    · split
      · exact List.Perm.refl l
      · exact (ih _ _ _).trans (listSwap_perm l _ _)

theorem partitionInPlace_perm (pred : α → Bool) (l : List α) :
    List.Perm ((partitionInPlace pred l).1 ++ (partitionInPlace pred l).2) l := by
  unfold partitionInPlace
  rw [List.take_append_drop]
  exact swapLoop_perm pred l.length l 0 l.length

theorem insertLe_perm (le : α → α → Bool) (x : α) (l : List α) :
    List.Perm (insertLe le x l) (x :: l) := by
  induction l with
  | nil => exact List.Perm.refl _
  | cons y ys ih =>
    rw [insertLe]
    by_cases h : le x y = true
    · rw [if_pos h]
    · rw [if_neg h]
      exact (ih.cons y).trans (List.Perm.swap _ _ _)

theorem sortLe_perm (le : α → α → Bool) (l : List α) :
    List.Perm (sortLe le l) l := by
  induction l with
  | nil => exact List.Perm.refl _
  | cons x xs ih => exact (insertLe_perm le x (sortLe le xs)).trans (ih.cons x)

theorem bisect_perm (surfaces : List Surface) :
    List.Perm ((longestAxisBisectSlice surfaces).1 ++ (longestAxisBisectSlice surfaces).2)
      surfaces := by
  unfold longestAxisBisectSlice
  rw [List.take_append_drop]
  exact sortLe_perm _ surfaces

theorem midpoint_perm (surfaces : List Surface) :
    List.Perm ((longestAxisMidpoint surfaces).1 ++ (longestAxisMidpoint surfaces).2)
      surfaces :=
  partitionInPlace_perm _ surfaces

theorem sahImpl_perm (surfaces : List Surface) (planes : List (Axis × F))
    (l r : List Surface) (h : sahPartitionImpl surfaces planes = some (l, r)) :
    List.Perm (l ++ r) surfaces := by
  simp only [sahPartitionImpl] at h
  split at h
  · exact absurd h (by simp)
  · split at h
    · exact absurd h (by simp)
    · rename_i best hmin
      injection h with h
      have hp := partitionInPlace_perm
        (fun s => F.lt (getComponent best.1 (surfaceBB s).centroid) best.2.1) surfaces
      rw [h] at hp
      simpa using hp

theorem partitionRun_perm (pb : PartitionBy) (s l r : List Surface)
    (h : pb.run s = some (l, r)) : List.Perm (l ++ r) s := by
  cases pb with
  | longestAxisBisectSlice =>
    simp only [PartitionBy.run, Option.some.injEq] at h
    have hp := bisect_perm s
    rw [h] at hp
    simpa using hp
  | longestAxisMidpoint =>
    simp only [PartitionBy.run, Option.some.injEq] at h
    have hp := midpoint_perm s
    rw [h] at hp
    simpa using hp
  | surfaceAreaHeuristic strat =>
    cases strat with
    | equalSize buckets => exact sahImpl_perm s _ l r h
    | perSurface => exact sahImpl_perm s _ l r h

theorem leafSurfs_append (a b : List Node) :
    leafSurfs (a ++ b) = leafSurfs a ++ leafSurfs b :=
  List.filterMap_append a b _

@[simp] theorem leafSurfs_nil : leafSurfs [] = [] := rfl

@[simp] theorem leafSurfs_cons_leaf (s : Surface) (rest : List Node) :
    leafSurfs (.leaf s :: rest) = s :: leafSurfs rest := rfl

@[simp] theorem leafSurfs_cons_internal (ro : Option ℕ) (bb : AABB) (rest : List Node) :
    leafSurfs (.internal ro bb :: rest) = leafSurfs rest := rfl

@[simp] theorem leafSurfs_cons_placeholder (rest : List Node) :
    leafSurfs (.placeholder :: rest) = leafSurfs rest := rfl

theorem set_append_len (acc : List α) (y x : α) (rest : List α) :
    (acc ++ y :: rest).set acc.length x = acc ++ x :: rest := by
  induction acc with
  | nil => rfl
  | cons a as ih => simp [List.set, ih]

theorem buildFuel_ok_spec :
    ∀ (fuel : ℕ) (pb : PartitionBy) (acc : List Node) (s : List Surface)
      (out : List Node), buildFuel pb fuel acc s = some (.ok out) →
      ∃ new, out = acc ++ new ∧ TreeOK acc.length new s := by
  intro fuel
  induction fuel with
  | zero =>
    intro pb acc s out h
    exact absurd h (by simp [buildFuel])
  | succ fuel ih =>
    intro pb acc s out h
    rw [buildFuel] at h
    by_cases h1 : s.length = 1
    · rw [if_pos h1] at h
      obtain ⟨s0, rfl⟩ := List.length_eq_one.mp h1
      simp only [List.get?] at h
      injection h with h
      injection h with h
      refine ⟨[.leaf s0], h.symm, ?_, ?_, ?_, ?_, ?_⟩
      · rfl
      · simp
      · simp
      · intro j node hget
        cases j with
        | zero =>
          simp only [List.get?] at hget
          injection hget with hget
          subst hget
          exact ⟨by simp, fun ro bb heq => absurd heq (by simp)⟩
        | succ j => simp [List.get?] at hget
      · exact ⟨.leaf s0, rfl, rfl⟩
    · rw [if_neg h1] at h
      by_cases h2 : s.length = 2
      · rw [if_pos h2] at h
        cases hrun : pb.run s with
        | none =>
          rw [hrun] at h
          simp at h
        | some lr =>
          rw [hrun] at h
          obtain ⟨l, r⟩ := lr
          dsimp only at h
          cases hl0 : l.get? 0 with
          | none =>
            rw [hl0] at h
            simp at h
          | some a =>
            cases hr0 : r.get? 0 with
            | none =>
              rw [hl0, hr0] at h
              simp at h
            | some b =>
              rw [hl0, hr0] at h
              dsimp only at h
              simp only [Option.some.injEq, Res.ok.injEq] at h
              have hperm := partitionRun_perm pb s l r hrun
              have hlen : l.length + r.length = 2 := by
                have := hperm.length_eq
                simp at this
                omega
              obtain ⟨hl0lt, -⟩ := List.get?_eq_some.mp hl0
              obtain ⟨hr0lt, -⟩ := List.get?_eq_some.mp hr0
              have hla : l = [a] := by
                cases l with
                | nil => simp [List.get?] at hl0
                | cons x xs =>
                  simp only [List.get?] at hl0
                  injection hl0 with hl0
                  subst hl0
                  cases xs with
                  | nil => rfl
                  | cons y ys =>
                    simp at hlen
                    cases r with
                    | nil => simp [List.get?] at hr0
                    | cons z zs => simp at hlen; omega
              have hrb : r = [b] := by
                cases r with
                | nil => simp [List.get?] at hr0
                | cons x xs =>
                  simp only [List.get?] at hr0
                  injection hr0 with hr0
                  subst hr0
                  cases xs with
                  | nil => rfl
                  | cons y ys =>
                    subst hla
                    simp only [List.length_cons, List.length_singleton] at hlen
                    omega
              subst hla hrb
              refine ⟨[.internal (some (acc.length + 2))
                  (AABB.merge (surfaceBB a) (surfaceBB b)), .leaf a, .leaf b],
                h.symm, ?_, ?_, ?_, ?_, ?_⟩
              · simp [h2]
              · omega
              · simpa using hperm
              · intro j node hget
                match j, hget with
                | 0, hget =>
                  injection hget with hget
                  subst hget
                  refine ⟨by simp, fun ro bb heq => ?_⟩
                  injection heq with heq1 heq2
                  exact ⟨acc.length + 2, by rw [← heq1], by omega, by simp⟩
                | 1, hget =>
                  injection hget with hget
                  subst hget
                  exact ⟨by simp, fun ro bb heq => absurd heq (by simp)⟩
                | 2, hget =>
                  injection hget with hget
                  subst hget
                  exact ⟨by simp, fun ro bb heq => absurd heq (by simp)⟩
                | j + 3, hget => simp [List.get?] at hget
              · exact ⟨_, rfl, rfl⟩
      · rw [if_neg h2] at h
        cases hrun : pb.run s with
        | none =>
          rw [hrun] at h
          simp at h
        | some lr =>
          rw [hrun] at h
          obtain ⟨l, r⟩ := lr
          dsimp only at h
          cases hL : buildFuel pb fuel (acc ++ [.placeholder]) l with
          | none =>
            rw [hL] at h
            simp at h
          | some res1 =>
            cases res1 with
            | panicked =>
              rw [hL] at h
              simp at h
            | ok nodes1 =>
              rw [hL] at h
              dsimp only at h
              cases hR : buildFuel pb fuel nodes1 r with
              | none =>
                rw [hR] at h
                simp at h
              | some res2 =>
                cases res2 with
                | panicked =>
                  rw [hR] at h
                  simp at h
                | ok nodes2 =>
                  rw [hR] at h
                  dsimp only at h
                  obtain ⟨new1, rfl, tok1⟩ := ih pb (acc ++ [.placeholder]) l nodes1 hL
                  obtain ⟨new2, rfl, tok2⟩ := ih pb _ r nodes2 hR
                  have hperm := partitionRun_perm pb s l r hrun
                  have hslen : l.length + r.length = s.length := by
                    have := hperm.length_eq
                    simpa using this
                  have hn1pos : 1 ≤ new1.length := by
                    have := tok1.len
                    have := tok1.spos
                    omega
                  have hn2pos : 1 ≤ new2.length := by
                    have := tok2.len
                    have := tok2.spos
                    omega
                  -- resolve the two root-box lookups
                  obtain ⟨b1, hb1get, hb1bb⟩ := tok1.root
                  obtain ⟨b2, hb2get, hb2bb⟩ := tok2.root
                  have hacc1 : (acc ++ [Node.placeholder]).length = acc.length + 1 := by
                    simp
                  have hget1 : (((acc ++ [Node.placeholder]) ++ new1) ++ new2).get?
                      (acc.length + 1) = some b1 := by
                    rw [List.get?_append (by simp; omega),
                      List.get?_append_right (by simp), hacc1]
                    simpa using hb1get
                  have hget2 : (((acc ++ [Node.placeholder]) ++ new1) ++ new2).get?
                      ((acc ++ [Node.placeholder]) ++ new1).length = some b2 := by
                    rw [List.get?_append_right (by omega)]
                    simpa using hb2get
                  rw [hget1, hget2] at h
                  simp only [Option.some_bind] at h
                  rw [hb1bb, hb2bb] at h
                  dsimp only at h
                  simp only [Option.some.injEq, Res.ok.injEq] at h
                  have hset : (((acc ++ [Node.placeholder]) ++ new1) ++ new2).set acc.length
                      (Node.internal (some ((acc ++ [Node.placeholder]) ++ new1).length)
                        (AABB.merge (foldBoxes (leafBoxes new1)) (foldBoxes (leafBoxes new2))))
                      = acc ++ (Node.internal (some ((acc ++ [Node.placeholder]) ++ new1).length)
                        (AABB.merge (foldBoxes (leafBoxes new1)) (foldBoxes (leafBoxes new2))))
                        :: (new1 ++ new2) := by
                    rw [List.append_assoc, List.append_assoc, List.cons_append,
                      set_append_len]
                    simp
                  rw [hset] at h
                  have hrIdx : ((acc ++ [Node.placeholder]) ++ new1).length
                      = acc.length + 1 + new1.length := by
                    simp
                    omega
                  have hl1perm : (leafSurfs new1).length = l.length := tok1.perm.length_eq
                  have hl2perm : (leafSurfs new2).length = r.length := tok2.perm.length_eq
                  have hlb1 : leafBoxes new1 ≠ [] := by
                    intro hc
                    have hc2 : (leafBoxes new1).length = 0 := by rw [hc]; rfl
                    unfold leafBoxes at hc2
                    rw [List.length_map, hl1perm] at hc2
                    have := tok1.spos
                    omega
                  have hlb2 : leafBoxes new2 ≠ [] := by
                    intro hc
                    have hc2 : (leafBoxes new2).length = 0 := by rw [hc]; rfl
                    unfold leafBoxes at hc2
                    rw [List.length_map, hl2perm] at hc2
                    have := tok2.spos
                    omega
                  refine ⟨_, h.symm, ?_, ?_, ?_, ?_, ?_⟩
                  · -- node count
                    have := tok1.len
                    have := tok2.len
                    have := tok1.spos
                    have := tok2.spos
                    simp only [List.length_cons, List.length_append]
                    omega
                  · have := tok1.spos
                    omega
                  · -- leaves permutation
                    have : leafSurfs (Node.internal
                        (some ((acc ++ [Node.placeholder]) ++ new1).length)
                        (AABB.merge (foldBoxes (leafBoxes new1)) (foldBoxes (leafBoxes new2)))
                        :: (new1 ++ new2)) = leafSurfs new1 ++ leafSurfs new2 := by
                      rw [leafSurfs_cons_internal, leafSurfs_append]
                    rw [this]
                    exact (tok1.perm.append tok2.perm).trans hperm
                  · -- index invariant
                    intro j node hget
                    cases j with
                    | zero =>
                      injection hget with hget
                      subst hget
                      refine ⟨by simp, fun ro bb heq => ?_⟩
                      injection heq with heq1 heq2
                      refine ⟨((acc ++ [Node.placeholder]) ++ new1).length,
                        by rw [← heq1], ?_, ?_⟩
                      · rw [hrIdx]; omega
                      · rw [hrIdx]
                        simp only [List.length_cons, List.length_append]
                        omega
                    | succ j =>
                      simp only [List.get?] at hget
                      by_cases hj : j < new1.length
                      · rw [List.get?_append hj] at hget
                        obtain ⟨hnp, hint⟩ := tok1.inv j node hget
                        refine ⟨hnp, fun ro bb heq => ?_⟩
                        obtain ⟨rr, hro, hlow, hhigh⟩ := hint ro bb heq
                        refine ⟨rr, hro, ?_, ?_⟩
                        · rw [hacc1] at hlow
                          omega
                        · rw [hacc1] at hhigh
                          simp only [List.length_cons, List.length_append]
                          omega
                      · rw [List.get?_append_right (by omega)] at hget
                        obtain ⟨hnp, hint⟩ := tok2.inv (j - new1.length) node hget
                        refine ⟨hnp, fun ro bb heq => ?_⟩
                        obtain ⟨rr, hro, hlow, hhigh⟩ := hint ro bb heq
                        rw [hrIdx] at hlow hhigh
                        refine ⟨rr, hro, ?_, ?_⟩
                        · omega
                        · simp only [List.length_cons, List.length_append]
                          omega
                  · -- root bounding box
                    refine ⟨_, rfl, ?_⟩
                    simp only [nodeBoundingBox, Option.some.injEq]
                    have : leafBoxes (Node.internal
                        (some ((acc ++ [Node.placeholder]) ++ new1).length)
                        (AABB.merge (foldBoxes (leafBoxes new1)) (foldBoxes (leafBoxes new2)))
                        :: (new1 ++ new2)) = leafBoxes new1 ++ leafBoxes new2 := by
                      unfold leafBoxes
                      rw [leafSurfs_cons_internal, leafSurfs_append, List.map_append]
                    rw [this, foldBoxes_append _ _ hlb1 hlb2]

theorem hitLoop_total (tree : List Node) (ray : Ray) (itvMin : F)
    (hinv : TreeInv tree) :
    ∀ (fuel : ℕ) (stack : List ℕ) (curMax : F) (acc : Option (Hit × Material)),
      (∀ i ∈ stack, i < tree.length) →
      stackMeasure tree.length stack < fuel →
      ∃ res, hitLoop tree ray itvMin fuel stack curMax acc = some (.ok res) := by
  intro fuel
  induction fuel with
  | zero =>
    intro stack curMax acc hb hm
    omega
  | succ fuel ih =>
    intro stack curMax acc hb hm
    cases stack with
    | nil => exact ⟨acc, rfl⟩
    | cons i rest =>
      have hi : i < tree.length := hb i (by simp)
      have hmcons : stackMeasure tree.length (i :: rest)
          = 2 ^ (tree.length - i) + stackMeasure tree.length rest := by
        simp [stackMeasure]
      have hpow1 : 1 ≤ 2 ^ (tree.length - i) := Nat.one_le_two_pow
      have hrest : stackMeasure tree.length rest < fuel := by omega
      have hbrest : ∀ j ∈ rest, j < tree.length := fun j hj => hb j (by simp [hj])
      obtain ⟨node, hnode⟩ : ∃ node, tree.get? i = some node := by
        cases hg : tree.get? i with
        | none =>
          rw [List.get?_eq_none] at hg
          omega
        | some node => exact ⟨node, rfl⟩
      obtain ⟨hnp, hint⟩ := hinv i node hnode
      rw [hitLoop, hnode]
      cases node with
      | placeholder => exact absurd rfl hnp
      | leaf s =>
        dsimp only [nodeBoundingBox]
        by_cases hbox : AABB.hit (surfaceBB s) ray ⟨itvMin, curMax⟩ = true
        · rw [if_neg (by simp [hbox])]
          cases hsh : surfaceHit s ray ⟨itvMin, curMax⟩ with
          | none => exact ih rest curMax acc hbrest hrest
          | some hm2 =>
            obtain ⟨hit, material⟩ := hm2
            dsimp only
            cases acc with
            | none => exact ih rest hit.t _ hbrest hrest
            | some best =>
              obtain ⟨bh, bm⟩ := best
              dsimp only
              by_cases hlt : F.lt bh.t hit.t = true
              · rw [if_pos hlt]
                exact ih rest curMax _ hbrest hrest
              · rw [if_neg hlt]
                exact ih rest hit.t _ hbrest hrest
        · rw [if_pos (by simp [hbox])]
          exact ih rest curMax acc hbrest hrest
      | internal ro bb =>
        obtain ⟨r, rfl, hlow, hhigh⟩ := hint ro bb rfl
        dsimp only [nodeBoundingBox]
        by_cases hbox : AABB.hit bb ray ⟨itvMin, curMax⟩ = true
        · rw [if_neg (by simp [hbox])]
          rw [if_pos (by omega : i + 1 < tree.length)]
          have hb2 : ∀ j ∈ (i + 1) :: r :: rest, j < tree.length := by
            intro j hj
            simp at hj
            rcases hj with rfl | rfl | hj
            · omega
            · omega
            · exact hbrest j hj
          have hm2 : stackMeasure tree.length ((i + 1) :: r :: rest) < fuel := by
            have e1 : tree.length - i = (tree.length - i - 2) + 2 := by omega
            have e2 : tree.length - i - 1 = (tree.length - i - 2) + 1 := by omega
            have hpr : 2 ^ (tree.length - r) ≤ 2 ^ (tree.length - i - 2) :=
              Nat.pow_le_pow_right (by norm_num) (by omega)
            have hsum : stackMeasure tree.length ((i + 1) :: r :: rest)
                = 2 ^ (tree.length - (i + 1)) + 2 ^ (tree.length - r)
                  + stackMeasure tree.length rest := by
              simp [stackMeasure]
              omega
            have e3 : tree.length - (i + 1) = tree.length - i - 1 := by omega
            rw [hsum, e3, e2] at *
            rw [e1] at hmcons
            have hx : 1 ≤ 2 ^ (tree.length - i - 2) := Nat.one_le_two_pow
            rw [pow_succ] at hmcons ⊢
            rw [pow_succ] at hmcons
            omega
          exact ih ((i + 1) :: r :: rest) curMax acc hb2 hm2
        · rw [if_pos (by simp [hbox])]
          exact ih rest curMax acc hbrest hrest

theorem fromSlice_spec (surfaces : List Surface) (pb : PartitionBy) (fuel : ℕ)
    (tree : List Node) (hne : surfaces ≠ [])
    (h : fromSlice surfaces pb fuel = some (.ok tree)) : TreeOK 0 tree surfaces := by
  unfold fromSlice at h
  rw [if_neg (by simpa using hne)] at h
  obtain ⟨new, hnew, tok⟩ := buildFuel_ok_spec fuel pb [] surfaces tree h
  rw [List.nil_append] at hnew
  subst hnew
  simpa using tok

/-- C5: for every non-empty surface collection and every partition strategy
under which construction completes, the bounding box of the built BVH (the
root node's box) equals the `AABB::merge`-fold of the bounding boxes of all
its `Leaf` nodes. -/
theorem c5_theorem (surfaces : List Surface) (pb : PartitionBy) (fuel : ℕ)
    (tree : List Node) (hne : surfaces ≠ [])
    (h : fromSlice surfaces pb fuel = some (.ok tree)) :
    bvhBoundingBox tree = some (foldBoxes (leafBoxes tree)) := by
  have tok := fromSlice_spec surfaces pb fuel tree hne h
  obtain ⟨b0, hget, hbb⟩ := tok.root
  have hlen : 1 ≤ tree.length := by
    have := tok.len
    have := tok.spos
    omega
  have htne : ¬ tree.isEmpty = true := by
    cases tree with
    | nil => simp at hlen
    | cons a as => simp
  rw [bvhBoundingBox, if_neg htne, hget, Option.some_bind, hbb]

/-- C5 witness: the two-sphere scene built with the bisect strategy. -/
theorem c5_witness : bvhBoundingBox treeAB = some (foldBoxes (leafBoxes treeAB)) :=
  c5_theorem sceneAB .longestAxisBisectSlice 3 treeAB (by decide) (by decide)

/-- C6: for every surface collection of size N for which construction
completes, `BVH::from_slice` produces exactly `2N-1` nodes when `N ≥ 2`,
exactly 1 node when `N = 1`, and 0 nodes when `N = 0`. -/
theorem c6_theorem (surfaces : List Surface) (pb : PartitionBy) (fuel : ℕ)
    (tree : List Node) (h : fromSlice surfaces pb fuel = some (.ok tree)) :
    (surfaces.length = 0 → tree.length = 0) ∧
    (surfaces.length = 1 → tree.length = 1) ∧
    (2 ≤ surfaces.length → tree.length = 2 * surfaces.length - 1) := by
  by_cases hne : surfaces = []
  · subst hne
    unfold fromSlice at h
    simp only [List.isEmpty_nil, if_pos] at h
    injection h with h
    injection h with h
    refine ⟨fun _ => by rw [← h]; rfl, fun h1 => by simp at h1, fun h2 => by simp at h2⟩
  · have tok := fromSlice_spec surfaces pb fuel tree hne h
    have h1 := tok.len
    have h2 := tok.spos
    exact ⟨fun h0 => by omega, fun hone => by omega, fun htwo => by omega⟩

/-- C6 witness: the two-sphere scene has a 3-node tree. -/
theorem c6_witness : treeAB.length = 2 * sceneAB.length - 1 :=
  (c6_theorem sceneAB .longestAxisBisectSlice 3 treeAB (by decide)).2.2 (by decide)

/-- C7: in every BVH returned by `BVH::from_slice`, no node is a
`Placeholder` and every `Internal` node at index `i` stores a right-child
index `r` with `i+1 < r < tree length` (the left child occupying `i+1`);
consequently traversal of a non-empty tree pops only in-bounds indices,
never reaches the `Placeholder` arms, and completes with fuel `2^n + 1`. -/
theorem c7_theorem (surfaces : List Surface) (pb : PartitionBy) (fuel : ℕ)
    (tree : List Node) (h : fromSlice surfaces pb fuel = some (.ok tree)) :
    TreeInv tree ∧
    (∀ (ray : Ray) (rayT : Interval), tree ≠ [] →
      ∃ res, bvhHitFuel tree ray rayT (2 ^ tree.length + 1) = some (.ok res)) := by
  have hinv : TreeInv tree := by
    by_cases hne : surfaces = []
    · subst hne
      unfold fromSlice at h
      simp only [List.isEmpty_nil, if_pos] at h
      injection h with h
      injection h with h
      intro i node hget
      rw [← h] at hget
      simp [List.get?] at hget
    · have tok := fromSlice_spec surfaces pb fuel tree hne h
      intro i node hget
      obtain ⟨hnp, hint⟩ := tok.inv i node hget
      refine ⟨hnp, fun ro bb heq => ?_⟩
      obtain ⟨r, hro, hlow, hhigh⟩ := hint ro bb heq
      exact ⟨r, hro, by omega, by omega⟩
  refine ⟨hinv, fun ray rayT htne => ?_⟩
  have hpos : 0 < tree.length := by
    cases tree with
    | nil => exact absurd rfl htne
    | cons a as => simp
  exact hitLoop_total tree ray rayT.min hinv (2 ^ tree.length + 1) [0] rayT.max none
    (by intro i hi; simp at hi; omega)
    (by simp [stackMeasure])

/-- C7 witness: the two-sphere tree traverses to completion. -/
theorem c7_witness :
    ∃ res, bvhHitFuel treeAB rayX itv001 (2 ^ treeAB.length + 1) = some (.ok res) :=
  (c7_theorem sceneAB .longestAxisBisectSlice 3 treeAB (by decide)).2 rayX itv001 (by decide)

theorem buildFuel_midpoint_nil (fuel : ℕ) :
    ∀ acc, buildFuel .longestAxisMidpoint fuel acc [] = none := by
  induction fuel with
  | zero =>
    intro acc
    rfl
  | succ fuel ih =>
    intro acc
    rw [buildFuel]
    rw [if_neg (by simp), if_neg (by simp)]
    rw [show PartitionBy.run .longestAxisMidpoint [] = some ([], []) from rfl]
    dsimp only
    rw [ih (acc ++ [Node.placeholder])]

theorem buildFuel_proper_ok :
    ∀ (fuel : ℕ) (pb : PartitionBy) (acc : List Node) (s : List Surface),
      s ≠ [] → s.length ≤ fuel → properSplits pb fuel s = true →
      ∃ out, buildFuel pb fuel acc s = some (.ok out) := by
  intro fuel
  induction fuel with
  | zero =>
    intro pb acc s hne hlen hp
    cases s with
    | nil => exact absurd rfl hne
    | cons a as => simp at hlen
  | succ fuel ih =>
    intro pb acc s hne hlen hp
    rw [buildFuel]
    rw [properSplits] at hp
    by_cases h1 : s.length = 1
    · rw [if_pos h1]
      obtain ⟨s0, rfl⟩ := List.length_eq_one.mp h1
      exact ⟨_, rfl⟩
    · rw [if_neg h1] at hp ⊢
      by_cases h2 : s.length = 2
      · rw [if_pos h2] at hp ⊢
        cases hrun : pb.run s with
        | none =>
          rw [hrun] at hp
          simp at hp
        | some lr =>
          rw [hrun] at hp
          obtain ⟨l, r⟩ := lr
          dsimp only at hp
          simp only [Bool.and_eq_true, Bool.not_eq_true', List.isEmpty_eq_false] at hp
          obtain ⟨hl, hr⟩ := hp
          have hperm := partitionRun_perm pb s l r hrun
          have hlr : l.length + r.length = 2 := by
            have := hperm.length_eq
            simp at this
            omega
          obtain ⟨a, la⟩ := List.exists_mem_of_ne_nil l hl
          obtain ⟨b, rb⟩ := List.exists_mem_of_ne_nil r hr
          cases l with
          | nil => exact absurd rfl hl
          | cons x xs =>
            cases r with
            | nil => exact absurd rfl hr
            | cons y ys =>
              dsimp only [List.get?]
              exact ⟨_, rfl⟩
      · rw [if_neg h2] at hp ⊢
        cases hrun : pb.run s with
        | none =>
          rw [hrun] at hp
          simp at hp
        | some lr =>
          rw [hrun] at hp
          obtain ⟨l, r⟩ := lr
          dsimp only at hp
          simp only [Bool.and_eq_true, Bool.not_eq_true', List.isEmpty_eq_false] at hp
          obtain ⟨⟨⟨hl, hr⟩, hpl⟩, hpr⟩ := hp
          have hperm := partitionRun_perm pb s l r hrun
          have hlr : l.length + r.length = s.length := by
            have := hperm.length_eq
            simpa using this
          have hlpos : 1 ≤ l.length := by
            cases l with
            | nil => exact absurd rfl hl
            | cons x xs => simp
          have hrpos : 1 ≤ r.length := by
            cases r with
            | nil => exact absurd rfl hr
            | cons x xs => simp
          obtain ⟨nodes1, hL⟩ := ih pb (acc ++ [Node.placeholder]) l hl (by omega) hpl
          obtain ⟨nodes2, hR⟩ := ih pb nodes1 r hr (by omega) hpr
          dsimp only
          rw [hL]
          dsimp only
          rw [hR]
          dsimp only
          obtain ⟨new1, rfl, tok1⟩ := buildFuel_ok_spec fuel pb _ l nodes1 hL
          obtain ⟨new2, rfl, tok2⟩ := buildFuel_ok_spec fuel pb _ r nodes2 hR
          obtain ⟨b1, hb1get, hb1bb⟩ := tok1.root
          obtain ⟨b2, hb2get, hb2bb⟩ := tok2.root
          have hn1pos : 1 ≤ new1.length := by
            have := tok1.len
            have := tok1.spos
            omega
          have hget1 : (((acc ++ [Node.placeholder]) ++ new1) ++ new2).get?
              (acc.length + 1) = some b1 := by
            rw [List.get?_append (by simp; omega),
              List.get?_append_right (by simp)]
            simpa using hb1get
          have hget2 : (((acc ++ [Node.placeholder]) ++ new1) ++ new2).get?
              ((acc ++ [Node.placeholder]) ++ new1).length = some b2 := by
            rw [List.get?_append_right (by omega)]
            simpa using hb2get
          rw [hget1, hget2]
          simp only [Option.some_bind]
          rw [hb1bb, hb2bb]
          exact ⟨_, rfl⟩

/-- C4 counterexample: with the `LongestAxisMidpoint` strategy, a collection
of three identical spheres (coincident bounding-box centroids) makes the
midpoint partition return one empty group, and `build_tree_rec` recurses on
the empty group forever: no amount of fuel makes the build return. -/
theorem c4_counterexample : buildDiverges .longestAxisMidpoint [sphA, sphA, sphA] := by
  intro fuel
  cases fuel with
  | zero => rfl
  | succ fuel =>
    rw [buildFuel]
    rw [if_neg (by decide), if_neg (by decide)]
    rw [show PartitionBy.run .longestAxisMidpoint [sphA, sphA, sphA]
        = some ([], [sphA, sphA, sphA]) from by decide]
    dsimp only
    rw [buildFuel_midpoint_nil fuel ([] ++ [Node.placeholder])]

/-- C4 (amended): `BVH::from_slice` with the `LongestAxisMidpoint` strategy
terminates — with fuel equal to the collection size — on every non-empty
surface collection all of whose recursive midpoint partitions produce two
non-empty groups; when some recursive partition returns an empty group
(e.g. three or more surfaces with coincident centroids, see the
counterexample) the construction recurses forever and does not terminate. -/
theorem c4_theorem (s : List Surface) (fuel : ℕ) (hne : s ≠ [])
    (hlen : s.length ≤ fuel)
    (hp : properSplits .longestAxisMidpoint fuel s = true) :
    ∃ tree, buildFuel .longestAxisMidpoint fuel [] s = some (.ok tree) :=
  buildFuel_proper_ok fuel .longestAxisMidpoint [] s hne hlen hp

/-- C4 witness: three spheres with distinct centroids along x build fine with
the midpoint strategy. -/
theorem c4_witness :
    ∃ tree, buildFuel .longestAxisMidpoint 3 [] [sphM0, sphM2, sphM10] = some (.ok tree) :=
  c4_theorem [sphM0, sphM2, sphM10] 3 (by decide) (by decide) (by decide)
namespace F

theorem div_nan_right (x : F) : div x nan = nan := by cases x <;> rfl

theorem sub_eq_fin {x y : F} {q : ℚ} (h : sub x y = fin q) :
    ∃ a b : ℚ, x = fin a ∧ y = fin b ∧ q = a - b := by
  cases x <;> cases y <;> simp [sub, add, neg] at h ⊢
  rw [← h]
  ring

theorem add_eq_fin {x y : F} {q : ℚ} (h : add x y = fin q) :
    ∃ a b : ℚ, x = fin a ∧ y = fin b ∧ q = a + b := by
  cases x <;> cases y <;> simp [add] at h ⊢
  rw [← h]

theorem div_eq_fin {x y : F} {q : ℚ} (h : div x y = fin q) :
    (∃ a b : ℚ, x = fin a ∧ y = fin b ∧ b ≠ 0 ∧ q = a / b) ∨
    ((y = inf ∨ y = ninf) ∧ (∃ a, x = fin a) ∧ q = 0) := by
  cases x <;> cases y <;> simp only [div] at h
  case nan.nan | nan.inf | nan.ninf | nan.fin | inf.nan | ninf.nan | fin.nan =>
    exact absurd h (by simp)
  case inf.inf | inf.ninf | ninf.inf | ninf.ninf =>
    exact absurd h (by simp)
  case inf.fin b | ninf.fin b =>
    split at h <;> exact absurd h (by simp)
  case fin.inf a =>
    right
    injection h with h
    exact ⟨Or.inl rfl, ⟨a, rfl⟩, h.symm⟩
  case fin.ninf a =>
    right
    injection h with h
    exact ⟨Or.inr rfl, ⟨a, rfl⟩, h.symm⟩
  case fin.fin a b =>
    left
    by_cases hb : b = 0
    · rw [if_pos hb] at h
      by_cases ha : a = 0
      · rw [if_pos ha] at h
        exact absurd h (by simp)
      · rw [if_neg ha] at h
        split at h <;> exact absurd h (by simp)
    · rw [if_neg hb] at h
      rw [show qdiv a b = a / b from qdiv_eq a b] at h
      injection h with h
      exact ⟨a, b, rfl, rfl, hb, h.symm⟩

theorem mul_self_cases (x : F) :
    mul x x = nan ∨ mul x x = inf ∨ ∃ q, mul x x = fin q ∧ 0 ≤ q := by
  cases x with
  | nan => exact Or.inl rfl
  | inf => exact Or.inr (Or.inl rfl)
  | ninf => exact Or.inr (Or.inl rfl)
  | fin q => exact Or.inr (Or.inr ⟨q * q, by simp, mul_self_nonneg q⟩)

theorem add_nn_cases {x y : F}
    (hx : x = nan ∨ x = inf ∨ ∃ q, x = fin q ∧ 0 ≤ q)
    (hy : y = nan ∨ y = inf ∨ ∃ q, y = fin q ∧ 0 ≤ q) :
    add x y = nan ∨ add x y = inf ∨ ∃ q, add x y = fin q ∧ 0 ≤ q := by
  rcases hx with rfl | rfl | ⟨a, rfl, ha⟩ <;> rcases hy with rfl | rfl | ⟨b, rfl, hb⟩
  · exact Or.inl rfl
  · exact Or.inl rfl
  · exact Or.inl rfl
  · exact Or.inl rfl
  · exact Or.inr (Or.inl rfl)
  · exact Or.inr (Or.inl rfl)
  · exact Or.inl rfl
  · exact Or.inr (Or.inl rfl)
  · exact Or.inr (Or.inr ⟨a + b, by simp, add_nonneg ha hb⟩)

theorem lengthSquaredF_cases (v : Vector3) :
    Vector3.lengthSquared v = nan ∨ Vector3.lengthSquared v = inf ∨
      ∃ q, Vector3.lengthSquared v = fin q ∧ 0 ≤ q :=
  add_nn_cases (add_nn_cases (mul_self_cases v.x) (mul_self_cases v.y))
    (mul_self_cases v.z)

theorem sqrt_cases (d : F) :
    sqrt d = nan ∨ sqrt d = inf ∨ ∃ q, sqrt d = fin q ∧ 0 ≤ q := by
  cases d with
  | nan => exact Or.inl rfl
  | inf => exact Or.inr (Or.inl rfl)
  | ninf => exact Or.inl rfl
  | fin q =>
    by_cases hq : q < 0
    · exact Or.inl (by simp [sqrt, hq])
    · exact Or.inr (Or.inr ⟨ratSqrt q, by simp [sqrt, hq], ratSqrt_nonneg q⟩)

theorem lt_not_nan_left {x y : F} (h : lt x y = true) : x ≠ nan := (lt_ne_nan h).1

theorem lt_not_nan_right {x y : F} (h : lt x y = true) : y ≠ nan := (lt_ne_nan h).2

theorem lt_right_ne_ninf {x y : F} (h : lt x y = true) : y ≠ ninf := by
  cases x <;> cases y <;> simp_all [lt]

theorem lt_left_ne_inf {x y : F} (h : lt x y = true) : x ≠ inf := by
  cases x <;> cases y <;> simp_all [lt]

theorem roots_le {aa hd sd : F} {q1 q2 : ℚ}
    (haa : aa = nan ∨ aa = inf ∨ ∃ q, aa = fin q ∧ 0 ≤ q)
    (hsd : sd = nan ∨ sd = inf ∨ ∃ q, sd = fin q ∧ 0 ≤ q)
    (h1 : div (sub hd sd) aa = fin q1)
    (h2 : div (add hd sd) aa = fin q2) :
    q1 ≤ q2 := by
  rcases haa with rfl | rfl | ⟨qa, rfl, hqa⟩
  · rw [div_nan_right] at h1
    exact absurd h1 (by simp)
  · rcases div_eq_fin h1 with ⟨a, b, -, hb, -, -⟩ | ⟨-, -, hq1⟩
    · exact absurd hb (by simp)
    · rcases div_eq_fin h2 with ⟨a, b, -, hb, -, -⟩ | ⟨-, -, hq2⟩
      · exact absurd hb (by simp)
      · rw [hq1, hq2]
  · rcases div_eq_fin h1 with ⟨a1, b1, hx1, hb1, hbne, hq1⟩ | ⟨hy, -, -⟩
    · rcases div_eq_fin h2 with ⟨a2, b2, hx2, hb2, -, hq2⟩ | ⟨hy, -, -⟩
      · injection hb1 with hb1e
        injection hb2 with hb2e
        subst hb1e hb2e
        obtain ⟨h0, s0, hhd, hsd0, ha1⟩ := sub_eq_fin hx1
        obtain ⟨h0b, s0b, hhdb, hsd0b, ha2⟩ := add_eq_fin hx2
        rw [hhd] at hhdb
        injection hhdb with hhe
        rw [hsd0] at hsd0b
        injection hsd0b with hse
        subst hhe hse
        have hsnn : 0 ≤ s0 := by
          rcases hsd with h | h | ⟨qs, hqs, hqsn⟩
          · rw [hsd0] at h
            exact absurd h (by simp)
          · rw [hsd0] at h
            exact absurd h (by simp)
          · rw [hsd0] at hqs
            injection hqs with hqs
            rw [hqs]
            exact hqsn
        have hapos : 0 < qa := lt_of_le_of_ne hqa (Ne.symm hbne)
        rw [hq1, hq2, ha1, ha2]
        rw [div_le_div_iff_of_pos_right hapos]
        linarith
      · rcases hy with hy | hy <;> exact absurd hy (by simp)
    · rcases hy with hy | hy <;> exact absurd hy (by simp)
end F

theorem surrounds_fin {itv : Interval} {t : F} (h : itv.surrounds t = true) :
    ∃ q, t = F.fin q := by
  unfold Interval.surrounds at h
  simp only [Bool.and_eq_true] at h
  obtain ⟨h1, h2⟩ := h
  cases t with
  | nan => exact absurd rfl (F.lt_not_nan_right h1)
  | inf => exact absurd rfl (F.lt_left_ne_inf h2)
  | ninf => exact absurd rfl (F.lt_right_ne_ninf h1)
  | fin q => exact ⟨q, rfl⟩

theorem surrounds_mono {mn m' mx t : F} (h : Interval.surrounds ⟨mn, m'⟩ t = true)
    (hm : m' = mx ∨ F.le m' mx = true) : Interval.surrounds ⟨mn, mx⟩ t = true := by
  unfold Interval.surrounds at h ⊢
  simp only [Bool.and_eq_true] at h ⊢
  obtain ⟨h1, h2⟩ := h
  refine ⟨h1, ?_⟩
  rcases hm with rfl | hle
  · exact h2
  · exact F.lt_of_lt_of_le h2 hle

theorem contains_mono {mn m' mx t : F} (h : Interval.contains ⟨mn, m'⟩ t = true)
    (hm : m' = mx ∨ F.le m' mx = true) : Interval.contains ⟨mn, mx⟩ t = true := by
  unfold Interval.contains at h ⊢
  simp only [Bool.and_eq_true] at h ⊢
  obtain ⟨h1, h2⟩ := h
  refine ⟨h1, ?_⟩
  rcases hm with rfl | hle
  · exact h2
  · exact F.le_trans h2 hle

theorem sphereHit_surrounds (c : Vector3) (rad : F) (ray : Ray) (rayT : Interval)
    (h : Hit) (hs : sphereHit c rad ray rayT = some h) :
    rayT.surrounds h.t = true := by
  simp only [sphereHit] at hs
  split at hs
  · exact absurd hs (by simp)
  · split at hs
    · exact absurd hs (by simp)
    · rename_i t heq
      injection hs with hs
      subst hs
      split at heq
      · rename_i hsur
        injection heq with heq
        subst heq
        exact hsur
      · split at heq
        · exact absurd heq (by simp)
        · rename_i hns
          rw [not_not] at hns
          injection heq with heq
          subst heq
          exact hns

theorem uvHit_contains (q u v norm : Vector3) (d : F) (w : Vector3) (ray : Ray)
    (rayT : Interval) (uh : UvHit) (hs : uvHit q u v norm d w ray rayT = some uh) :
    rayT.contains uh.t = true := by
  simp only [uvHit] at hs
  split at hs
  · exact absurd hs (by simp)
  · split at hs
    · exact absurd hs (by simp)
    · rename_i hnc
      rw [not_not] at hnc
      injection hs with hs
      rw [← hs]
      exact hnc

theorem uvHit_mono (q u v norm : Vector3) (d : F) (w : Vector3) (ray : Ray)
    (mn m' mx : F) (uh : UvHit) (hm : m' = mx ∨ F.le m' mx = true)
    (hs : uvHit q u v norm d w ray ⟨mn, m'⟩ = some uh) :
    uvHit q u v norm d w ray ⟨mn, mx⟩ = some uh := by
  simp only [uvHit] at hs ⊢
  split at hs
  · exact absurd hs (by simp)
  · rename_i t hplane
    split at hs
    · exact absurd hs (by simp)
    · rename_i hnc
      rw [not_not] at hnc
      rw [if_neg (by rw [not_not]; exact contains_mono hnc hm)]
      exact hs

theorem quadHit_mono (q u v norm : Vector3) (d : F) (w : Vector3) (ray : Ray)
    (mn m' mx : F) (h : Hit) (hm : m' = mx ∨ F.le m' mx = true)
    (hs : quadHit q u v norm d w ray ⟨mn, m'⟩ = some h) :
    quadHit q u v norm d w ray ⟨mn, mx⟩ = some h := by
  simp only [quadHit] at hs ⊢
  split at hs
  · exact absurd hs (by simp)
  · rename_i uh huv
    rw [uvHit_mono q u v norm d w ray mn m' mx uh hm huv]
    exact hs

theorem triangleHit_mono (q u v norm : Vector3) (d : F) (w : Vector3) (ray : Ray)
    (mn m' mx : F) (h : Hit) (hm : m' = mx ∨ F.le m' mx = true)
    (hs : triangleHit q u v norm d w ray ⟨mn, m'⟩ = some h) :
    triangleHit q u v norm d w ray ⟨mn, mx⟩ = some h := by
  simp only [triangleHit] at hs ⊢
  split at hs
  · exact absurd hs (by simp)
  · rename_i uh huv
    rw [uvHit_mono q u v norm d w ray mn m' mx uh hm huv]
    exact hs

theorem quadHit_t (q u v norm : Vector3) (d : F) (w : Vector3) (ray : Ray)
    (rayT : Interval) (h : Hit) (hs : quadHit q u v norm d w ray rayT = some h) :
    rayT.contains h.t = true := by
  simp only [quadHit] at hs
  split at hs
  · exact absurd hs (by simp)
  · rename_i uh huv
    split at hs
    · exact absurd hs (by simp)
    · injection hs with hs
      rw [← hs]
      exact uvHit_contains q u v norm d w ray rayT uh huv

theorem triangleHit_t (q u v norm : Vector3) (d : F) (w : Vector3) (ray : Ray)
    (rayT : Interval) (h : Hit) (hs : triangleHit q u v norm d w ray rayT = some h) :
    rayT.contains h.t = true := by
  simp only [triangleHit] at hs
  split at hs
  · exact absurd hs (by simp)
  · rename_i uh huv
    split at hs
    · exact absurd hs (by simp)
    · injection hs with hs
      rw [← hs]
      exact uvHit_contains q u v norm d w ray rayT uh huv

theorem geomHit_t (g : Geometry) (ray : Ray) (rayT : Interval) (h : Hit)
    (hs : g.hit ray rayT = some h) :
    F.le h.t rayT.max = true ∧ h.t ≠ F.nan := by
  cases g with
  | sphereG c rad =>
    have hsur := sphereHit_surrounds c rad ray rayT h hs
    unfold Interval.surrounds at hsur
    simp only [Bool.and_eq_true] at hsur
    exact ⟨F.le_of_lt hsur.2, F.lt_not_nan_right hsur.1⟩
  | quadG q u v norm d w =>
    have hcon := quadHit_t q u v norm d w ray rayT h hs
    unfold Interval.contains at hcon
    simp only [Bool.and_eq_true] at hcon
    exact ⟨hcon.2, (F.le_ne_nan hcon.1).2⟩
  | triangleG q u v norm d w =>
    have hcon := triangleHit_t q u v norm d w ray rayT h hs
    unfold Interval.contains at hcon
    simp only [Bool.and_eq_true] at hcon
    exact ⟨hcon.2, (F.le_ne_nan hcon.1).2⟩

theorem surrounds_ne_nan {itv : Interval} {t : F} (h : itv.surrounds t = true) :
    t ≠ F.nan := by
  obtain ⟨q, hq⟩ := surrounds_fin h
  rw [hq]
  simp

theorem sphereHit_mono (c : Vector3) (rad : F) (ray : Ray) (mn m' mx : F) (h : Hit)
    (hm : m' = mx ∨ F.le m' mx = true)
    (hs : sphereHit c rad ray ⟨mn, m'⟩ = some h) :
    ∃ h2, sphereHit c rad ray ⟨mn, mx⟩ = some h2 ∧ F.le h2.t h.t = true := by
  simp only [sphereHit] at hs
  split at hs
  · exact absurd hs (by simp)
  · rename_i hdisc
    split at hs
    · exact absurd hs (by simp)
    · rename_i t heq
      injection hs with hs
      subst hs
      rcases hbig : sphereHit c rad ray ⟨mn, mx⟩ with _ | h2
      · exfalso
        simp only [sphereHit] at hbig
        rw [if_neg hdisc] at hbig
        split at hbig
        · rename_i heqB
          split at heq
          · rename_i hsur1
            split at heqB
            · exact absurd heqB (by simp)
            · rename_i hnB1
              exact absurd (surrounds_mono hsur1 hm) hnB1
          · rename_i hout
            split at heq
            · exact absurd heq (by simp)
            · rename_i hns
              rw [not_not] at hns
              split at heqB
              · exact absurd heqB (by simp)
              · rename_i hnB1
                split at heqB
                · rename_i hB2
                  exact hB2 (surrounds_mono hns hm)
                · exact absurd heqB (by simp)
        · exact absurd hbig (by simp)
      · simp only [sphereHit] at hbig
        rw [if_neg hdisc] at hbig
        split at hbig
        · exact absurd hbig (by simp)
        · rename_i t2 heqB
          injection hbig with hbig
          subst hbig
          refine ⟨_, rfl, ?_⟩
          show F.le t2 t = true
          split at heq
          · rename_i hsur1
            injection heq with heq
            subst heq
            split at heqB
            · injection heqB with heqB
              subst heqB
              exact F.le_refl_not_nan (surrounds_ne_nan hsur1)
            · rename_i hnB1
              exact absurd (surrounds_mono hsur1 hm) hnB1
          · rename_i hout
            split at heq
            · exact absurd heq (by simp)
            · rename_i hns
              rw [not_not] at hns
              injection heq with heq
              subst heq
              split at heqB
              · rename_i hsurB1
                injection heqB with heqB
                subst heqB
                obtain ⟨q1, hq1⟩ := surrounds_fin hsurB1
                obtain ⟨q2, hq2⟩ := surrounds_fin hns
                rw [hq1, hq2]
                simp only [F.le_fin_fin, decide_eq_true_eq]
                exact F.roots_le (F.lengthSquaredF_cases ray.direction)
                  (F.sqrt_cases _) hq1 hq2
              · rename_i hnB1
                split at heqB
                · exact absurd heqB (by simp)
                · rename_i hnB2
                  rw [not_not] at hnB2
                  injection heqB with heqB
                  subst heqB
                  exact F.le_refl_not_nan (surrounds_ne_nan hns)

theorem geomHit_mono (g : Geometry) (ray : Ray) (mn m' mx : F) (h : Hit)
    (hm : m' = mx ∨ F.le m' mx = true)
    (hs : g.hit ray ⟨mn, m'⟩ = some h) :
    ∃ h2, g.hit ray ⟨mn, mx⟩ = some h2 ∧ F.le h2.t h.t = true := by
  cases g with
  | sphereG c rad => exact sphereHit_mono c rad ray mn m' mx h hm hs
  | quadG q u v norm d w =>
    refine ⟨h, quadHit_mono q u v norm d w ray mn m' mx h hm hs, ?_⟩
    have hc := quadHit_t q u v norm d w ray ⟨mn, m'⟩ h hs
    unfold Interval.contains at hc
    simp only [Bool.and_eq_true] at hc
    exact F.le_refl_not_nan (F.le_ne_nan hc.1).2
  | triangleG q u v norm d w =>
    refine ⟨h, triangleHit_mono q u v norm d w ray mn m' mx h hm hs, ?_⟩
    have hc := triangleHit_t q u v norm d w ray ⟨mn, m'⟩ h hs
    unfold Interval.contains at hc
    simp only [Bool.and_eq_true] at hc
    exact F.le_refl_not_nan (F.le_ne_nan hc.1).2

theorem surfaceHit_t_le (s : Surface) (ray : Ray) (rayT : Interval) (h : Hit)
    (m : Material) (hs : surfaceHit s ray rayT = some (h, m)) :
    F.le h.t rayT.max = true ∧ h.t ≠ F.nan := by
  simp only [surfaceHit, Option.map_eq_some'] at hs
  obtain ⟨gh, hgeo, heq⟩ := hs
  injection heq with h1 h2
  exact h1 ▸ geomHit_t s.geometry ray rayT gh hgeo

theorem surfaceHit_mono (s : Surface) (ray : Ray) (mn m' mx : F) (h : Hit)
    (m : Material) (hm : m' = mx ∨ F.le m' mx = true)
    (hs : surfaceHit s ray ⟨mn, m'⟩ = some (h, m)) :
    ∃ h2, surfaceHit s ray ⟨mn, mx⟩ = some (h2, m) ∧ F.le h2.t h.t = true := by
  simp only [surfaceHit, Option.map_eq_some'] at hs
  obtain ⟨gh, hgeo, heq⟩ := hs
  injection heq with h1 h2
  obtain ⟨gm, hgm, hle⟩ := geomHit_mono s.geometry ray mn m' mx h hm (h1 ▸ hgeo)
  refine ⟨gm, ?_, hle⟩
  simp only [surfaceHit, hgm, Option.map_some']
  rw [h2]

theorem sliceHit_eq_foldl (l : List Surface) (ray : Ray) (rayT : Interval) :
    sliceHit l ray rayT = l.foldl (sliceStep ray rayT) none := by
  unfold sliceHit
  congr 1

theorem sliceStep_skip (ray : Ray) (rayT : Interval) (e : Surface)
    (h : surfaceHit e ray rayT = none) (acc : Option (Hit × Material)) :
    sliceStep ray rayT acc e = acc := by
  cases acc <;> simp [sliceStep, h]

theorem sliceStep_first (ray : Ray) (rayT : Interval) (e : Surface)
    (f : Hit × Material) (h : surfaceHit e ray rayT = some f) :
    sliceStep ray rayT none e = some f := by
  simp [sliceStep, h]

theorem sliceStep_best (ray : Ray) (rayT : Interval) (e : Surface)
    (f b : Hit × Material) (h : surfaceHit e ray rayT = some f) :
    sliceStep ray rayT (some b) e
      = some (if F.lt f.1.t b.1.t then f else b) := by
  simp [sliceStep, h]

theorem sliceFold_le (ray : Ray) (rayT : Interval) (l : List Surface) :
    ∀ b : Hit × Material, b.1.t ≠ F.nan →
    ∃ b2, l.foldl (sliceStep ray rayT) (some b) = some b2 ∧
      F.le b2.1.t b.1.t = true ∧ b2.1.t ≠ F.nan := by
  induction l with
  | nil =>
    intro b hb
    exact ⟨b, rfl, F.le_refl_not_nan hb, hb⟩
  | cons s l ih =>
    intro b hb
    simp only [List.foldl_cons]
    rcases hsh : surfaceHit s ray rayT with _ | f
    · rw [sliceStep_skip ray rayT s hsh]
      exact ih b hb
    · have hft : f.1.t ≠ F.nan := by
        rcases f with ⟨fh, fm⟩
        exact (surfaceHit_t_le s ray rayT fh fm hsh).2
      rw [sliceStep_best ray rayT s f b hsh]
      by_cases hlt : F.lt f.1.t b.1.t = true
      · rw [if_pos hlt]
        obtain ⟨b2, h1, h2, h3⟩ := ih f hft
        exact ⟨b2, h1, F.le_trans h2 (F.le_of_lt hlt), h3⟩
      · rw [if_neg hlt]
        exact ih b hb

theorem sliceFold_mem (ray : Ray) (rayT : Interval) (l : List Surface) :
    ∀ (acc : Option (Hit × Material)),
      (∀ b0, acc = some b0 → b0.1.t ≠ F.nan) →
      ∀ s ∈ l, ∀ f, surfaceHit s ray rayT = some f →
      ∃ b2, l.foldl (sliceStep ray rayT) acc = some b2 ∧
        F.le b2.1.t f.1.t = true := by
  induction l with
  | nil =>
    intro acc hacc s hs
    exact absurd hs (List.not_mem_nil s)
  | cons s' l ih =>
    intro acc hacc s hs f hf
    simp only [List.foldl_cons]
    rcases List.mem_cons.mp hs with rfl | hmem
    · have hft : f.1.t ≠ F.nan := by
        rcases f with ⟨fh, fm⟩
        exact (surfaceHit_t_le s ray rayT fh fm hf).2
      rcases acc with _ | b0
      · rw [sliceStep_first ray rayT s f hf]
        obtain ⟨b2, h1, h2, _⟩ := sliceFold_le ray rayT l f hft
        exact ⟨b2, h1, h2⟩
      · have hb0 : b0.1.t ≠ F.nan := hacc b0 rfl
        rw [sliceStep_best ray rayT s f b0 hf]
        by_cases hlt : F.lt f.1.t b0.1.t = true
        · rw [if_pos hlt]
          obtain ⟨b2, h1, h2, _⟩ := sliceFold_le ray rayT l f hft
          exact ⟨b2, h1, h2⟩
        · rw [if_neg hlt]
          obtain ⟨b2, h1, h2, _⟩ := sliceFold_le ray rayT l b0 hb0
          have hble : F.le b0.1.t f.1.t = true :=
            F.le_of_not_lt hft hb0 (Bool.not_eq_true _ ▸ eq_false_of_ne_true hlt)
          exact ⟨b2, h1, F.le_trans h2 hble⟩
    · refine ih _ ?_ s hmem f hf
      intro b0 hb0
      rcases hsh : surfaceHit s' ray rayT with _ | f'
      · rw [sliceStep_skip ray rayT s' hsh] at hb0
        exact hacc b0 hb0
      · have hft' : f'.1.t ≠ F.nan := by
          rcases f' with ⟨fh, fm⟩
          exact (surfaceHit_t_le s' ray rayT fh fm hsh).2
        rcases acc with _ | b1
        · rw [sliceStep_first ray rayT s' f' hsh] at hb0
          injection hb0 with hb0
          exact hb0 ▸ hft'
        · rw [sliceStep_best ray rayT s' f' b1 hsh] at hb0
          injection hb0 with hb0
          by_cases hlt : F.lt f'.1.t b1.1.t = true
          · rw [if_pos hlt] at hb0
            exact hb0 ▸ hft'
          · rw [if_neg hlt] at hb0
            exact hb0 ▸ hacc b1 rfl

theorem hitLoop_sound (tree : List Node) (surfaces : List Surface) (ray : Ray)
    (mn mx : F)
    (hleaves : ∀ i s, tree.get? i = some (Node.leaf s) → s ∈ surfaces) :
    ∀ (fuel : ℕ) (stack : List ℕ) (curMax : F) (acc : Option (Hit × Material)),
      (curMax = mx ∨ F.le curMax mx = true) →
      (∀ h0 m0, acc = some (h0, m0) →
        ∃ hb mb, sliceHit surfaces ray ⟨mn, mx⟩ = some (hb, mb) ∧
          F.le hb.t h0.t = true) →
      ∀ h m, hitLoop tree ray mn fuel stack curMax acc = some (.ok (some (h, m))) →
      ∃ hb mb, sliceHit surfaces ray ⟨mn, mx⟩ = some (hb, mb) ∧
        F.le hb.t h.t = true := by
  intro fuel
  induction fuel with
  | zero =>
    intro stack curMax acc _ _ h m hrun
    exact absurd hrun (by simp [hitLoop])
  | succ fuel ih =>
    intro stack curMax acc hcur hacc h m hrun
    rcases stack with _ | ⟨i, rest⟩
    · simp only [hitLoop] at hrun
      injection hrun with hrun
      injection hrun with hrun
      exact hacc h m hrun
    · simp only [hitLoop] at hrun
      split at hrun
      · exact absurd hrun (by simp)
      · rename_i node hget
        cases node with
        | placeholder =>
          simp only [nodeBoundingBox] at hrun
          exact absurd hrun (by simp)
        | internal mri bb =>
          simp only [nodeBoundingBox] at hrun
          split at hrun
          · exact ih rest curMax acc hcur hacc h m hrun
          · exact ih _ curMax acc hcur hacc h m hrun
        | leaf s =>
          simp only [nodeBoundingBox] at hrun
          split at hrun
          · exact ih rest curMax acc hcur hacc h m hrun
          · split at hrun
            · exact ih rest curMax acc hcur hacc h m hrun
            · rename_i hit material heq
              have hclow : F.le hit.t curMax = true :=
                (surfaceHit_t_le s ray ⟨mn, curMax⟩ hit material heq).1
              have hcur2 : hit.t = mx ∨ F.le hit.t mx = true := by
                rcases hcur with rfl | hle
                · exact Or.inr hclow
                · exact Or.inr (F.le_trans hclow hle)
              have hacc2 : ∀ h0 m0,
                  (some (hit, material) : Option (Hit × Material)) = some (h0, m0) →
                  ∃ hb mb, sliceHit surfaces ray ⟨mn, mx⟩ = some (hb, mb) ∧
                    F.le hb.t h0.t = true := by
                intro h0 m0 he
                injection he with he
                injection he with he1 he2
                subst he1
                obtain ⟨h2, hs2, hle2⟩ :=
                  surfaceHit_mono s ray mn curMax mx hit material hcur heq
                have hmem : s ∈ surfaces := hleaves i s hget
                obtain ⟨b2, hfold, hble⟩ :=
                  sliceFold_mem ray ⟨mn, mx⟩ surfaces none
                    (by intro b0 hb0; exact absurd hb0 (by simp))
                    s hmem (h2, material) hs2
                rcases b2 with ⟨hb, mb⟩
                refine ⟨hb, mb, (sliceHit_eq_foldl surfaces ray ⟨mn, mx⟩).trans hfold, ?_⟩
                exact F.le_trans hble hle2
              rcases acc with _ | ⟨nearest, nm⟩
              · exact ih rest hit.t (some (hit, material)) hcur2 hacc2 h m hrun
              · dsimp only at hrun
                by_cases hlt : F.lt nearest.t hit.t = true
                · rw [if_pos hlt] at hrun
                  exact ih rest curMax (some (nearest, nm)) hcur hacc h m hrun
                · rw [if_neg hlt] at hrun
                  exact ih rest hit.t (some (hit, material)) hcur2 hacc2 h m hrun

/-- C1: the literal claim (BVH nearest-hit queries agree exactly with the
brute-force scan) is false — see `c1_counterexample`, where the scan hits a
tangent sphere at `t = 2` but the BVH rejects it at the root box because a
zero direction component with the origin on the box boundary makes a slab
bound NaN and the box test fail.  The amended, provable property is one-sided
refinement: on any tree built by `BVH::from_slice`, whenever the traversal
completes normally, (i) if the scan finds no hit the BVH finds none, and
(ii) any hit the BVH returns is dominated by a scan hit with `t` no larger —
the interval-shrinking traversal never returns anything closer than the scan's
nearest hit. -/
theorem c1_theorem (pb : PartitionBy) (surfaces : List Surface) (tree : List Node)
    (ray : Ray) (rayT : Interval) (bfuel qfuel : ℕ) (res : Option (Hit × Material))
    (hbuild : fromSlice surfaces pb bfuel = some (.ok tree))
    (hquery : bvhHitFuel tree ray rayT qfuel = some (.ok res)) :
    (sliceHit surfaces ray rayT = none → res = none) ∧
    (∀ h m, res = some (h, m) →
      ∃ hb mb, sliceHit surfaces ray rayT = some (hb, mb) ∧
        F.le hb.t h.t = true) := by
  have hleaves : ∀ i s, tree.get? i = some (Node.leaf s) → s ∈ surfaces := by
    rcases surfaces with _ | ⟨s0, srest⟩
    · intro i s hget
      rcases tree with _ | ⟨n0, nrest⟩
      · simp at hget
      · simp [fromSlice] at hbuild
    · have tok := fromSlice_spec (s0 :: srest) pb bfuel tree (by simp) hbuild
      intro i s hget
      have hmem : s ∈ leafSurfs tree :=
        List.mem_filterMap.mpr ⟨Node.leaf s, List.get?_mem hget, rfl⟩
      exact tok.perm.subset hmem
  have hsound := hitLoop_sound tree surfaces ray rayT.min rayT.max hleaves qfuel
      [0] rayT.max none (Or.inl rfl)
      (by intro h0 m0 hc; exact absurd hc (by simp))
  constructor
  · intro hnone
    rcases res with _ | hm
    · rfl
    · rcases hm with ⟨h, m⟩
      obtain ⟨hb, mb, hscan, _⟩ := hsound h m hquery
      have hscan2 : sliceHit surfaces ray rayT = some (hb, mb) := hscan
      rw [hnone] at hscan2
      exact absurd hscan2 (by simp)
  · intro h m hres
    rw [hres] at hquery
    exact hsound h m hquery

/-- C1 counterexample: a single unit sphere at the origin, queried with the
ray from `(1, -2, 0)` along `+y` and interval `(0.001, ∞)`.  The brute-force
scan reports the tangent hit at `t = 2` (discriminant exactly zero), but the
BVH built over the same single surface returns no hit: the ray's zero `x`
component with origin `x = 1` exactly on the box face makes the `x` slab
bounds `(-∞, NaN)`, the NaN-ignoring `max` collapses the exit bound to `-∞`,
and the box test fails, so the leaf is never tested.  Hence BVH and scan
results differ. -/
theorem c1_counterexample :
    fromSlice [csSphere] .longestAxisBisectSlice 3 = some (.ok [.leaf csSphere]) ∧
    (sliceHit [csSphere] cRay cItv).map (fun hm => hm.1.t) = some (.fin 2) ∧
    bvhHitFuel [.leaf csSphere] cRay cItv 3 = some (.ok none) :=
  ⟨by decide, by decide, by decide⟩

/-- C1 witness: the amended theorem applied to the two-sphere scene, where the
BVH does return the hit at `t = 2` and the scan hit dominates it. -/
theorem c1_witness :
    ∃ hb mb, sliceHit sceneAB rayX itv001 = some (hb, mb) ∧
      F.le hb.t hitAB.t = true :=
  (c1_theorem .longestAxisBisectSlice sceneAB treeAB rayX itv001 3 9
      (some (hitAB, matD)) (by decide) (by decide)).2 hitAB matD rfl

/-- C2: refuted — bounding volumes are not sound for quadrilaterals.  The
quadrilateral with `q = (0,0,0)`, `u = (1,0,0)`, `v = (-1,1,0)` accepts the
hit point `(1,0,0)` (the corner `q + u` of the parallelogram), but its
bounding box is built only from the corners `q` and `q + u + v = (0,1,0)`,
so after padding its `x` extent is `[-1/20000, 1/20000]` and the hit point
lies outside it.  `quad::bounding_box` ignores the corners `q + u` and
`q + v`, which the `u + v` diagonal cancellation does not cover. -/
theorem c2_theorem :
    (c2Geom.hit c2Ray c2Itv).map (fun h => h.p) = some ⟨.fin 1, .fin 0, .fin 0⟩ ∧
    AABB.containsPoint c2Geom.boundingBox ⟨.fin 1, .fin 0, .fin 0⟩ = false :=
  ⟨by decide, by decide⟩

/-- C3: refuted — `BVH::hit` is not total on every tree `BVH::from_slice`
produces.  From zero surfaces `from_slice` explicitly constructs the empty
tree, yet `BVH::hit` unconditionally starts its traversal stack at index `0`
and its first action indexes `self.tree[0]`, which panics (out of bounds) on
the empty array; in the embedding the query returns the `panicked` outcome
rather than hit-or-none. -/
theorem c3_theorem :
    fromSlice [] .longestAxisBisectSlice 1 = some (.ok []) ∧
    bvhHitFuel [] c3Ray c3Itv 2 = some .panicked :=
  ⟨by decide, by decide⟩

/-- C8: refuted — the NaN guard in `AABB::hit` is dead code and does not
short-circuit to "no hit".  The guard tests `lower == f64::NAN` with IEEE
`==`, which is false even for NaN, so it never fires.  On the flat box with
`x`-extent `[0,0]` and a ray with zero `x` direction starting exactly on that
boundary, the `x` slab computation produces `0/0 = NaN`, yet `AABB::hit`
returns `true`: the NaN flows into the NaN-ignoring min/max reduction and is
silently dropped rather than rejecting the hit. -/
theorem c8_theorem :
    F.isNan (Vector3.vdiv (Vector3.vsub c8Box.min c8Ray.origin)
      c8Ray.direction).x = true ∧
    c8Box.hit c8Ray c8Itv = true :=
  ⟨by decide, by decide⟩

/-- C10: confirmed — the per-channel pixel path maps a linear component of
exactly `1.0` to byte `255` and `0.0` to `0`, and every negative component is
mapped to `0` by `linear_to_gamma` before any square root is taken, so the
output byte is `0`. -/
theorem c10_theorem :
    ppmChannel (.fin 1) = 255 ∧ ppmChannel (.fin 0) = 0 ∧
    ∀ c : F, F.lt c (.fin 0) = true →
      linearToGamma c = .fin 0 ∧ ppmChannel c = 0 := by
  refine ⟨by decide, by decide, ?_⟩
  intro c hc
  have h0 : ¬ (F.lt (.fin 0) c = true) := by
    cases c with
    | nan => exact absurd hc (by decide)
    | inf => exact absurd hc (by decide)
    | ninf => decide
    | fin q =>
      simp only [F.lt_fin_fin, decide_eq_true_eq] at hc
      simp only [F.lt_fin_fin, decide_eq_true_eq, not_lt]
      linarith
  have hlg : linearToGamma c = .fin 0 := by
    unfold linearToGamma
    rw [if_neg h0]
  refine ⟨hlg, ?_⟩
  simp only [ppmChannel]
  rw [hlg]
  decide

/-- C10 witness: the clamping clause applied at the concrete negative
component `-3`. -/
theorem c10_witness :
    F.lt (.fin (-3)) (.fin 0) = true ∧
    (linearToGamma (.fin (-3)) = .fin 0 ∧ ppmChannel (.fin (-3)) = 0) :=
  ⟨by decide, c10_theorem.2.2 (.fin (-3)) (by decide)⟩

theorem F.powi_fin (q : ℚ) : ∀ n, F.powi (.fin q) n = .fin (q ^ n)
  | 0 => by simp [F.powi]
  | n + 1 => by rw [F.powi, F.powi_fin q n, F.mul_fin_fin, pow_succ]

theorem dot_sq_le_one (dx dy dz nx ny nz : ℚ) (hd : dx^2 + dy^2 + dz^2 = 1)
    (hn : nx^2 + ny^2 + nz^2 = 1) :
    (dx*nx + dy*ny + dz*nz)^2 ≤ 1 := by
  nlinarith [sq_nonneg (dx*ny - dy*nx), sq_nonneg (dx*nz - dz*nx),
    sq_nonneg (dy*nz - dz*ny)]

theorem clampRust_of_abs_le (q : ℚ) (h1 : -1 ≤ q) (h2 : q ≤ 1) :
    F.clampRust (.fin q) (.fin (-1)) (.fin 1) = .fin q := by
  unfold F.clampRust
  rw [if_neg (by simp only [F.lt_fin_fin, decide_eq_true_eq, not_lt]; linarith),
      if_neg (by simp only [F.lt_fin_fin, decide_eq_true_eq, not_lt]; linarith)]

theorem toUnit_fin_unit (dx dy dz : ℚ) (h : dx*dx + dy*dy + dz*dz = 1) :
    Vector3.toUnit ⟨.fin dx, .fin dy, .fin dz⟩ = ⟨.fin dx, .fin dy, .fin dz⟩ := by
  unfold Vector3.toUnit Vector3.length
  have hls : Vector3.lengthSquared ⟨.fin dx, .fin dy, .fin dz⟩ = .fin 1 := by
    simp only [Vector3.lengthSquared, F.mul_fin_fin, F.add_fin_fin, h]
  rw [hls]
  rw [show F.sqrt (.fin 1) = .fin 1 from by decide]
  unfold Vector3.sdiv Vector3.smul
  rw [show F.div (.fin 1) (.fin 1) = .fin 1 from by decide]
  simp

theorem c9_dot (dx dy dz nx ny nz : ℚ) :
    Vector3.dot (Vector3.vneg ⟨.fin dx, .fin dy, .fin dz⟩) ⟨.fin nx, .fin ny, .fin nz⟩
      = .fin (-(dx*nx + dy*ny + dz*nz)) := by
  simp only [Vector3.vneg, Vector3.dot, F.neg_fin, F.mul_fin_fin, F.add_fin_fin,
    F.fin.injEq]
  ring

theorem c9_noreflect (xi : F) (cq : ℚ) (h0 : 0 ≤ cq) (h1 : cq ≤ 1)
    (hxi : F.lt xi (.fin ((1 - cq)^5)) = false) :
    (F.lt (.fin 1) (F.mul (.fin 1)
        (F.sqrt (F.sub (.fin 1) (F.powi (.fin cq) 2)))) ||
      F.lt xi (reflectance (.fin cq) (.fin 1))) = false := by
  rw [F.powi_fin]
  rw [show F.sub (.fin 1) (.fin (cq ^ 2)) = .fin (1 - cq ^ 2) from by
    rw [F.sub_fin_fin]]
  have hnn : (0:ℚ) ≤ 1 - cq ^ 2 := by nlinarith
  rw [F.sqrt_fin_nonneg hnn]
  have hle1 : ratSqrt (1 - cq ^ 2) ≤ 1 := ratSqrt_le_one hnn (by nlinarith)
  rw [show F.mul (.fin 1) (.fin (ratSqrt (1 - cq ^ 2)))
      = .fin (ratSqrt (1 - cq ^ 2)) from by rw [F.mul_fin_fin, one_mul]]
  have hc1 : F.lt (.fin 1) (.fin (ratSqrt (1 - cq ^ 2))) = false := by
    simp only [F.lt_fin_fin, decide_eq_false_iff_not, not_lt]
    exact hle1
  have hrefl : reflectance (.fin cq) (.fin 1) = .fin ((1 - cq)^5) := by
    simp only [reflectance]
    rw [show F.sub (.fin 1) (.fin 1) = .fin 0 from by decide,
        show F.add (.fin 1) (.fin 1) = .fin 2 from by decide,
        show F.div (.fin 0) (.fin 2) = .fin 0 from by decide,
        show F.powi (.fin 0) 2 = .fin 0 from by decide]
    simp only [F.sub_fin_fin, F.powi_fin, F.mul_fin_fin, F.add_fin_fin, F.fin.injEq]
    ring
  rw [hc1, hrefl, hxi, Bool.or_self]

theorem c9_refract (dx dy dz nx ny nz : ℚ)
    (hd1 : dx^2 + dy^2 + dz^2 = 1) (hn1 : nx^2 + ny^2 + nz^2 = 1)
    (hfacing : 0 ≤ -(dx*nx + dy*ny + dz*nz)) :
    Vector3.refract ⟨.fin dx, .fin dy, .fin dz⟩ ⟨.fin nx, .fin ny, .fin nz⟩ (.fin 1)
      = ⟨.fin dx, .fin dy, .fin dz⟩ := by
  have hCS := dot_sq_le_one dx dy dz nx ny nz hd1 hn1
  set D := dx*nx + dy*ny + dz*nz with hD
  simp only [Vector3.refract]
  rw [c9_dot]
  rw [clampRust_of_abs_le (-D) (by nlinarith [sq_nonneg (D - 1)])
      (by nlinarith [sq_nonneg (D + 1)])]
  rw [show Vector3.smul (Vector3.vadd ⟨.fin dx, .fin dy, .fin dz⟩
      (Vector3.smul ⟨.fin nx, .fin ny, .fin nz⟩ (.fin (-D)))) (.fin 1)
      = ⟨.fin (dx - D*nx), .fin (dy - D*ny), .fin (dz - D*nz)⟩ from by
    simp only [Vector3.smul, Vector3.vadd, F.mul_fin_fin, F.add_fin_fin,
      Vector3.mk.injEq, F.fin.injEq]
    refine ⟨by ring, by ring, by ring⟩]
  rw [show Vector3.lengthSquared
        ⟨.fin (dx - D*nx), .fin (dy - D*ny), .fin (dz - D*nz)⟩
      = .fin (1 - D^2) from by
    simp only [Vector3.lengthSquared, F.mul_fin_fin, F.add_fin_fin, F.fin.injEq]
    linear_combination hd1 + D^2 * hn1 + 2*D*hD]
  rw [show F.abs (F.sub (.fin 1) (.fin (1 - D^2))) = .fin (D^2) from by
    simp only [F.sub_fin_fin, F.abs_fin, F.fin.injEq]
    rw [show (1 : ℚ) - (1 - D^2) = D^2 from by ring]
    exact abs_of_nonneg (sq_nonneg D)]
  rw [show F.sqrt (.fin (D^2)) = .fin (-D) from by
    rw [show (D^2 : ℚ) = (-D) * (-D) from by ring]
    rw [F.sqrt_fin_nonneg (mul_nonneg hfacing hfacing)]
    rw [ratSqrt_sq hfacing]]
  simp only [F.neg_fin, Vector3.smul, Vector3.vadd, F.mul_fin_fin, F.add_fin_fin,
    Vector3.mk.injEq, F.fin.injEq]
  refine ⟨by ring, by ring, by ring⟩

/-- C9: the literal claim ("a dielectric with refraction index 1 never takes
the reflection branch, for every outcome of the random draw") is false — see
`c9_counterexample`: Schlick's approximation at index 1 gives reflectance
`(1 - cos θ)^5`, which is strictly positive away from normal incidence, so a
small enough draw `ξ` reflects.  The amended, provable property: whenever the
draw is at least `(1 - cos θ)^5` (in particular for every draw at normal
incidence), the scatter refracts with zero deviation — the outgoing direction
equals the (unit) incoming direction exactly.  Hypotheses state that the
incoming direction and the stored face normal are finite unit vectors and
that the normal faces against the ray. -/
theorem c9_theorem (ray : Ray) (hit : Hit) (xi : F) (dx dy dz nx ny nz : ℚ)
    (hdir : ray.direction = ⟨.fin dx, .fin dy, .fin dz⟩)
    (hnrm : hit.face_normal = ⟨.fin nx, .fin ny, .fin nz⟩)
    (hd1 : dx^2 + dy^2 + dz^2 = 1)
    (hn1 : nx^2 + ny^2 + nz^2 = 1)
    (hfacing : 0 ≤ -(dx*nx + dy*ny + dz*nz))
    (hxi : F.lt xi (.fin ((1 - -(dx*nx + dy*ny + dz*nz))^5)) = false) :
    (dielectricScatter (.fin 1) ray hit xi).map (fun s => s.ray.direction)
      = some ray.direction := by
  have hCS := dot_sq_le_one dx dy dz nx ny nz hd1 hn1
  obtain ⟨rorig, rdir⟩ := ray
  obtain ⟨ht, hp, hal, hbe, hff, hfn⟩ := hit
  dsimp only at hdir hnrm ⊢
  subst hdir
  subst hnrm
  simp only [dielectricScatter, Option.map_some']
  dsimp only
  rw [toUnit_fin_unit dx dy dz (by linear_combination hd1)]
  rw [show (if hff = true then F.div (.fin 1) (.fin 1) else F.fin 1) = .fin 1 from by
    cases hff
    · rfl
    · decide]
  rw [c9_dot]
  rw [clampRust_of_abs_le (-(dx*nx + dy*ny + dz*nz))
      (by nlinarith [sq_nonneg (dx*nx + dy*ny + dz*nz - 1)])
      (by nlinarith [sq_nonneg (dx*nx + dy*ny + dz*nz + 1)])]
  rw [c9_noreflect xi (-(dx*nx + dy*ny + dz*nz)) hfacing
      (by nlinarith [sq_nonneg (dx*nx + dy*ny + dz*nz + 1)]) hxi]
  rw [if_neg (by simp)]
  rw [c9_refract dx dy dz nx ny nz hd1 hn1 hfacing]

/-- C9 counterexample: a dielectric with refraction index 1, hit by the unit
direction `(3/5, -4/5, 0)` against normal `(0, 1, 0)`.  The reflectance is
`(1 - 4/5)^5 = 1/3125 > 0`, so the draw `ξ = 0` takes the reflection branch
and the outgoing direction `(3/5, 4/5, 0)` differs from the incoming one:
index 1 does not always refract. -/
theorem c9_counterexample :
    (dielectricScatter (.fin 1) c9Ray c9Hit (.fin 0)).map (fun s => s.ray.direction)
      = some ⟨.fin (mkRat 3 5), .fin (mkRat 4 5), .fin 0⟩ ∧
    c9Ray.direction ≠ ⟨.fin (mkRat 3 5), .fin (mkRat 4 5), .fin 0⟩ :=
  ⟨by decide, by decide⟩

/-- C9 witness: the amended theorem at the same incidence data with the draw
`ξ = 1/2 ≥ 1/3125`, where the scatter refracts and returns the incoming
direction unchanged. -/
theorem c9_witness :
    (dielectricScatter (.fin 1) c9Ray c9Hit (.fin (mkRat 1 2))).map
      (fun s => s.ray.direction) = some c9Ray.direction :=
  c9_theorem c9Ray c9Hit (.fin (mkRat 1 2)) (mkRat 3 5) (mkRat (-4) 5) 0 0 1 0
    (by decide) (by decide)
    (by norm_num [Rat.mkRat_eq_div])
    (by norm_num)
    (by norm_num [Rat.mkRat_eq_div])
    (by simp only [F.lt_fin_fin, decide_eq_false_iff_not, not_lt]
        norm_num [Rat.mkRat_eq_div])
end RT

